import Mathlib

/-!
# A shallow embedding of `src/blossom.ts` (Edmonds' blossom algorithm, TypeScript)

This file embeds the TypeScript implementation of Edmonds' maximum-weight
matching algorithm (`src/src/blossom.ts`) as executable Lean definitions and
proves properties of that embedding.

Modelling conventions:
* JS numbers that the validated algorithm manipulates are exact rationals `ℚ`
  (validation rejects non-finite weights; vertex ids are naturals).
* JS arrays are Lean `List`s.  In-range reads/writes coincide with JS;
  out-of-range reads return an explicit default and out-of-range writes are
  dropped (the algorithm only ever touches in-range cells on real runs).
* `x ^ 1` on a JS number (two's-complement xor) is `jsXor1`: it flips the low
  bit, so it adds 1 to even integers and subtracts 1 from odd ones
  (`-1 ^ 1 = -2`).
* `Array.prototype.at` supports negative (from-the-end) indices, `slice`
  supports negative start positions, and `indexOf` returns `-1` on a miss;
  `jsAt`, `jsSliceFrom`/`jsSliceTo` and `jsIndexOf` reproduce this.
* The `while` loops and recursive helpers of the source are written as
  fuel-indexed recursions returning `Option` (`none` = fuel exhausted).
-/

/-- Two's-complement `x ^ 1` (flip the lowest bit) on an integer. -/
def jsXor1 (x : ℤ) : ℤ := if x % 2 = 0 then x + 1 else x - 1

/-- `x ^ m` for `m ∈ {0, 1}` as used with the `endpTrick` bit in the source. -/
def jsXorBit (x : ℤ) (m : ℕ) : ℤ := if m = 1 then jsXor1 x else x

/-- Two's-complement test `x & 4 ≠ 0` (bit 2 of a JS integer). -/
def jsAnd4 (x : ℤ) : Bool :=
  if 0 ≤ x then (x.toNat / 4) % 2 = 1 else ((-x - 1).toNat / 4) % 2 = 0

/-- JS `Math.floor(x / 2)` (`getEdgeFromEndpoint`). -/
def jsDiv2 (x : ℤ) : ℤ := Int.ediv x 2

/-- Read a JS array cell at a natural index (default on out-of-range). -/
def aget (l : List α) (i : ℕ) (d : α) : α := l.getD i d

/-- Read a JS array cell at an integer index (default on out-of-range). -/
def agetI (l : List α) (i : ℤ) (d : α) : α :=
  if 0 ≤ i then l.getD i.toNat d else d

/-- Write a JS array cell at a natural index (dropped when out-of-range). -/
def aset (l : List α) (i : ℕ) (v : α) : List α := l.set i v

/-- Write a JS array cell at an integer index (dropped when out-of-range). -/
def asetI (l : List α) (i : ℤ) (v : α) : List α :=
  if 0 ≤ i then l.set i.toNat v else l

/-- JS `Array.prototype.at`: negative indices count from the end. -/
def jsAt (l : List α) (i : ℤ) (d : α) : α :=
  if 0 ≤ i then l.getD i.toNat d
  else if 0 ≤ (l.length : ℤ) + i then l.getD ((l.length : ℤ) + i).toNat d
  else d

/-- JS `Array.prototype.indexOf`: first index of `x`, `-1` when absent. -/
def jsIndexOf [DecidableEq α] : List α → α → ℤ
  | [], _ => -1
  | a :: as, x =>
    if a = x then 0
    else match jsIndexOf as x with
      | -1 => -1
      | i => i + 1

/-- JS `slice(i)`: drop the first `i` elements, negative `i` counts from the
end (clamped at the start). -/
def jsSliceFrom (l : List α) (i : ℤ) : List α :=
  if 0 ≤ i then l.drop i.toNat else l.drop ((l.length : ℤ) + i).toNat

/-- JS `slice(0, i)`: take the first `i` elements, negative `i` counts from
the end (clamped at the start). -/
def jsSliceTo (l : List α) (i : ℤ) : List α :=
  if 0 ≤ i then l.take i.toNat else l.take ((l.length : ℤ) + i).toNat

/-- JS `Math.min(...l)` over a nonempty list (`0` on the empty list, which the
algorithm never queries: `getMin` is only applied with `nVertex ≥ 1`). -/
def qMinList : List ℚ → ℚ
  | [] => 0
  | x :: xs => xs.foldl min x

/-- An edge of the validated input graph: `(vertex1, vertex2, weight)`. -/
abbrev BEdge := ℕ × ℕ × ℚ

/-- The mutable state of the `Edmonds` class (`src/blossom.ts`, lines 59–95).
Field names and value conventions follow the source; `-1` sentinels make the
corresponding fields `ℤ`-valued. -/
structure EdmondsState where
  edges : List BEdge
  maxCardinality : Bool
  nEdge : ℕ
  nVertex : ℕ
  maxWeight : ℚ
  endpoint : List ℕ
  neighbend : List (List ℕ)
  mate : List ℤ
  label : List ℤ
  labelEnd : List ℤ
  inBlossom : List ℕ
  blossomParent : List ℤ
  blossomChilds : List (List ℕ)
  blossomBase : List ℤ
  blossomEndPs : List (List ℤ)
  bestEdge : List ℤ
  blossomBestEdges : List (List ℕ)
  unusedBlossoms : List ℕ
  dualVar : List ℚ
  allowEdge : List Bool
  queue : List ℕ

/-- `calculateVertexCount` (lines 151–157): `1 + max endpoint id`, `0` for no
edges. -/
def calculateVertexCount (edges : List BEdge) : ℕ :=
  edges.foldl (fun acc e => max acc (max (e.1 + 1) (e.2.1 + 1))) 0

/-- `calculateMaxWeight` (lines 159–161): `Math.max(0, ...weights)`. -/
def calculateMaxWeight (edges : List BEdge) : ℚ :=
  edges.foldl (fun acc e => max acc e.2.2) 0

/-- The `endpoint` array (lines 163–168): `endpoint[p] = edges[p / 2][p % 2]`. -/
def mkEndpoint (edges : List BEdge) : List ℕ :=
  (List.range (2 * edges.length)).map fun p =>
    let e := aget edges (p / 2) (0, 0, 0)
    if p % 2 = 0 then e.1 else e.2.1

/-- The `neighbend` array (lines 170–177): per vertex, incident endpoint ids.
`neighbend[i]` gets `2k+1` and `neighbend[j]` gets `2k` for edge `k = (i,j)`. -/
def mkNeighbend (edges : List BEdge) (nVertex : ℕ) : List (List ℕ) :=
  (edges.enum).foldl
    (fun nb ke =>
      let nb₁ := aset nb ke.2.1 (aget nb ke.2.1 [] ++ [2 * ke.1 + 1])
      aset nb₁ ke.2.2.1 (aget nb₁ ke.2.2.1 [] ++ [2 * ke.1]))
    (List.replicate nVertex [])

/-- The `Edmonds` constructor (lines 87–206): graph, blossom and matching
structures in their initial configuration. -/
def mkEdmonds (edges : List BEdge) (maxCardinality : Bool) : EdmondsState :=
  let nEdge := edges.length
  let nVertex := calculateVertexCount edges
  let maxWeight := calculateMaxWeight edges
  { edges := edges
    maxCardinality := maxCardinality
    nEdge := nEdge
    nVertex := nVertex
    maxWeight := maxWeight
    endpoint := mkEndpoint edges
    neighbend := mkNeighbend edges nVertex
    mate := List.replicate nVertex (-1)
    label := List.replicate (2 * nVertex) 0
    labelEnd := List.replicate (2 * nVertex) (-1)
    inBlossom := List.range nVertex
    blossomParent := List.replicate (2 * nVertex) (-1)
    blossomChilds := List.replicate (2 * nVertex) []
    blossomBase := (List.range nVertex).map (fun i => (i : ℤ)) ++
      List.replicate nVertex (-1)
    blossomEndPs := List.replicate (2 * nVertex) []
    bestEdge := List.replicate (2 * nVertex) (-1)
    blossomBestEdges := List.replicate (2 * nVertex) []
    unusedBlossoms := (List.range nVertex).map (· + nVertex)
    dualVar := List.replicate nVertex maxWeight ++ List.replicate nVertex 0
    allowEdge := List.replicate nEdge false
    queue := [] }

/-- `slack` (lines 439–442): `dualVar[i] + dualVar[j] - 2 * weight`. -/
def slack (s : EdmondsState) (k : ℕ) : ℚ :=
  let e := aget s.edges k (0, 0, 0)
  aget s.dualVar e.1 0 + aget s.dualVar e.2.1 0 - 2 * e.2.2

/-- `slack` applied to an integer edge index taken from a `-1`-sentinel cell. -/
def slackI (s : EdmondsState) (k : ℤ) : ℚ := slack s k.toNat

/-- `endpoint[p]` for an integer endpoint index. -/
def endpAt (s : EdmondsState) (p : ℤ) : ℕ := agetI s.endpoint p 0

/-- `label[this.inBlossom[v]]` (helper `hasVertexLabel`, lines 115–117). -/
def labelOfVertex (s : EdmondsState) (v : ℕ) : ℤ :=
  aget s.label (aget s.inBlossom v 0) 0

/-- Worklist form of `blossomLeaves` (lines 444–459): descend through
`blossomChilds`, keeping an id as a leaf when it is `< nVertex` at the entry
point or `≤ nVertex` as a child (the source uses `child <= this.nVertex`). -/
def blossomLeavesGo (s : EdmondsState) : ℕ → List ℕ → Option (List ℕ)
  | 0, _ => none
  | _ + 1, [] => some []
  | fuel + 1, c :: cs => do
    let hd ← if c ≤ s.nVertex then some [c]
      else blossomLeavesGo s fuel (aget s.blossomChilds c [])
    let tl ← blossomLeavesGo s fuel cs
    some (hd ++ tl)

/-- `blossomLeaves` (lines 444–459). -/
def blossomLeaves (s : EdmondsState) (fuel : ℕ) (b : ℕ) : Option (List ℕ) :=
  if b < s.nVertex then some [b]
  else blossomLeavesGo s fuel (aget s.blossomChilds b [])

/-- `assignLabel` (lines 467–485): label a vertex and its blossom, reset its
best edge; an `S` label enqueues the blossom's leaves, a `T` label recursively
labels the mate of the blossom's base as `S`. -/
def assignLabel (s : EdmondsState) :
    ℕ → ℕ → ℤ → ℤ → Option EdmondsState
  | 0, _, _, _ => none
  | fuel + 1, v, t, labelingEdge =>
    let b := aget s.inBlossom v 0
    let s := { s with
      label := aset (aset s.label v t) b t
      labelEnd := aset (aset s.labelEnd v labelingEdge) b labelingEdge
      bestEdge := aset (aset s.bestEdge v (-1)) b (-1) }
    if t = 1 then do
      let leaves ← blossomLeaves s fuel b
      some { s with queue := s.queue ++ leaves }
    else if t = 2 then
      let baseVertex := aget s.blossomBase b (-1)
      let mateBase := agetI s.mate baseVertex 0
      assignLabel s fuel (endpAt s mateBase) 1 (jsXor1 mateBase)
    else
      some s

/-- The walking loop of `scanBlossom` (lines 501–533).  `c1`/`c2` are the two
walk positions (`none` = JS `null`); returns the updated state, the visited
path and the discovered base (`-1` for an augmenting path). -/
def scanBlossomLoop (s : EdmondsState) :
    ℕ → Option ℕ → Option ℕ → List ℕ → Option (EdmondsState × List ℕ × ℤ)
  | 0, _, _, _ => none
  | fuel + 1, c1, c2, path =>
    match c1, c2 with
    | none, none => some (s, path, -1)
    | _, _ =>
      let bc : ℕ × Option ℕ :=
        match c1 with
        | some x => (aget s.inBlossom x 0, c2)
        | none => (aget s.inBlossom (c2.getD 0) 0, none)
      let blossom := bc.1
      let c2 := bc.2
      if jsAnd4 (aget s.label blossom 0) then
        some (s, path, aget s.blossomBase blossom (-1))
      else
        let path := path ++ [blossom]
        let s := { s with label := aset s.label blossom 5 }
        let c1 : Option ℕ :=
          if aget s.labelEnd blossom (-1) = -1 then none
          else
            let x := endpAt s (aget s.labelEnd blossom (-1))
            let blossom := aget s.inBlossom x 0
            some (endpAt s (aget s.labelEnd blossom (-1)))
        match c2 with
        | some y => scanBlossomLoop s fuel (some y) c1 path
        | none => scanBlossomLoop s fuel c1 none path

/-- `scanBlossom` (lines 494–538): trace both alternating paths to find a
common base (blossom) or distinct roots (augmenting path, base `-1`); the
transient `5` marks are restored to `S` afterwards. -/
def scanBlossom (s : EdmondsState) (fuel : ℕ) (v w : ℕ) :
    Option (EdmondsState × ℤ) := do
  let r ← scanBlossomLoop s fuel (some v) (some w) []
  let s := r.1
  let s := r.2.1.foldl (fun st bi => { st with label := aset st.label bi 1 }) s
  some (s, r.2.2)

/-- One tree-branch walk of `addBlossom` (lines 554–560 resp. 566–572):
re-parent each blossom on the way to `baseBlossom` under `b`, collecting the
children and their connecting endpoints (`useXor` selects the `w`-side variant
that stores the opposite endpoint). -/
def addBlossomWalk (s : EdmondsState) :
    ℕ → ℕ → ℕ → ℕ → List ℕ → List ℤ → Bool →
    Option (EdmondsState × List ℕ × List ℤ)
  | 0, _, _, _, _, _, _ => none
  | fuel + 1, vB, baseBlossom, b, path, endPs, useXor =>
    if vB = baseBlossom then some (s, path, endPs)
    else
      let s := { s with blossomParent := aset s.blossomParent vB (b : ℤ) }
      let le := aget s.labelEnd vB (-1)
      let path := path ++ [vB]
      let endPs := endPs ++ [if useXor then jsXor1 le else le]
      let vNext := endpAt s le
      addBlossomWalk s fuel (aget s.inBlossom vNext 0) baseBlossom b path endPs
        useXor

/-- The `path.forEach` of `addBlossom` (lines 587–619): merge each former
child's best-edge information into `bestEdgeTo` and clear the child's caches. -/
def addBlossomBest (s : EdmondsState) :
    ℕ → ℕ → List ℕ → List ℤ → Option (EdmondsState × List ℤ)
  | 0, _, _, _ => none
  | _ + 1, _, [], bestEdgeTo => some (s, bestEdgeTo)
  | fuel + 1, b, bv :: rest, bestEdgeTo => do
    let nbLists : List (List ℕ) ←
      if aget s.blossomBestEdges bv [] = [] then do
        let pathLeaves ← blossomLeaves s fuel bv
        some (pathLeaves.map fun u => (aget s.neighbend u []).map (· / 2))
      else some [aget s.blossomBestEdges bv []]
    let bestEdgeTo := nbLists.foldl
      (fun bET nbList =>
        nbList.foldl
          (fun bET ek =>
            let e := aget s.edges ek (0, 0, 0)
            let ij : ℕ × ℕ :=
              if aget s.inBlossom e.2.1 0 = b then (e.2.1, e.1)
              else (e.1, e.2.1)
            let bj := aget s.inBlossom ij.2 0
            if bj ≠ b ∧ aget s.label bj 0 = 1 ∧
                (aget bET bj (-1) = -1 ∨
                  slack s ek < slackI s (aget bET bj (-1))) then
              aset bET bj (ek : ℤ)
            else bET)
          bET)
      bestEdgeTo
    let s := { s with
      blossomBestEdges := aset s.blossomBestEdges bv []
      bestEdge := aset s.bestEdge bv (-1) }
    addBlossomBest s fuel b rest bestEdgeTo

/-- The per-leaf relabelling of `addBlossom` (lines 579–584): re-enqueue
former `T`-leaves and re-point `inBlossom` at the new blossom `b`. -/
def addBlossomRelabel (b : ℕ) (st : EdmondsState) (u : ℕ) : EdmondsState :=
  let st :=
    if aget st.label (aget st.inBlossom u 0) 0 = 2 then
      { st with queue := st.queue ++ [u] }
    else st
  { st with inBlossom := aset st.inBlossom u b }

/-- `addBlossom` (lines 540–628): contract the odd cycle through `base` closed
by edge `k` into a fresh blossom id taken from the free list. -/
def addBlossom (s : EdmondsState) (fuel : ℕ) (base k : ℕ) :
    Option EdmondsState := do
  let e := aget s.edges k (0, 0, 0)
  let v := e.1
  let w := e.2.1
  let baseBlossom := aget s.inBlossom base 0
  let vBlossom := aget s.inBlossom v 0
  let wBlossom := aget s.inBlossom w 0
  let b ← s.unusedBlossoms.getLast?
  let s := { s with unusedBlossoms := s.unusedBlossoms.dropLast }
  let s := { s with
    blossomBase := aset s.blossomBase b (base : ℤ)
    blossomParent := aset (aset s.blossomParent b (-1)) baseBlossom (b : ℤ) }
  let r₁ ← addBlossomWalk s fuel vBlossom baseBlossom b [] [] false
  let s := r₁.1
  let path := (r₁.2.1 ++ [baseBlossom]).reverse
  let endPs := r₁.2.2.reverse ++ [(2 * k : ℤ)]
  let r₂ ← addBlossomWalk s fuel wBlossom baseBlossom b path endPs true
  let s := r₂.1
  let path := r₂.2.1
  let endPs := r₂.2.2
  let s := { s with
    label := aset s.label b 1
    labelEnd := aset s.labelEnd b (aget s.labelEnd baseBlossom (-1))
    dualVar := aset s.dualVar b 0
    blossomChilds := aset s.blossomChilds b path
    blossomEndPs := aset s.blossomEndPs b endPs }
  let leaves ← blossomLeaves s fuel b
  let s := leaves.foldl (addBlossomRelabel b) s
  let r₃ ← addBlossomBest s fuel b path (List.replicate (2 * s.nVertex) (-1))
  let s := r₃.1
  let be := (r₃.2.filter (· ≠ -1)).map Int.toNat
  let s := { s with blossomBestEdges := aset s.blossomBestEdges b be }
  let bestB := be.foldl
    (fun best ek =>
      if best = -1 ∨ slack s ek < slackI s best then (ek : ℤ) else best)
    (-1)
  some { s with bestEdge := aset s.bestEdge b bestB }

/-- JS `Array.prototype.at` returning `none` for out-of-range indices
(where JS yields `undefined`). -/
def jsAtO (l : List α) (i : ℤ) : Option α :=
  if 0 ≤ i then l.get? i.toNat
  else if 0 ≤ (l.length : ℤ) + i then l.get? ((l.length : ℤ) + i).toNat
  else none

mutual

/-- `expandBlossom` (lines 630–701): detach the children of blossom `b`; in
the mid-search `T`-blossom case additionally walk the cycle from the
tree-entry child, relabelling and re-allowing the unwound tight edges; finally
clear `b`'s record and return its id to the free list. -/
def expandBlossom (s : EdmondsState) (fuel : ℕ) (b : ℕ) (endStage : Bool) :
    Option EdmondsState :=
  match fuel with
  | 0 => none
  | fuel + 1 => do
    let s ← expandChilds s fuel b endStage (aget s.blossomChilds b [])
    let s ←
      if ¬endStage ∧ aget s.label b 0 = 2 then do
        let entryChild :=
          aget s.inBlossom (endpAt s (jsXor1 (aget s.labelEnd b (-1)))) 0
        let j := jsIndexOf (aget s.blossomChilds b []) entryChild
        let jt : ℤ × ℤ × ℕ :=
          if j % 2 ≠ 0 then
            (j - ((aget s.blossomChilds b []).length : ℤ), 1, 0)
          else (j, -1, 1)
        let r ← expandLoop1 s fuel b jt.1 jt.2.1 jt.2.2 (aget s.labelEnd b (-1))
        let s := r.1
        let j := r.2.1
        let p := r.2.2
        let bv := jsAt (aget s.blossomChilds b []) j 0
        let s := { s with
          label := aset (aset s.label (endpAt s (jsXor1 p)) 2) bv 2 }
        let s := { s with
          labelEnd := aset (aset s.labelEnd (endpAt s (jsXor1 p)) p) bv p
          bestEdge := aset s.bestEdge bv (-1) }
        expandLoop2 s fuel b (j + jt.2.1) jt.2.1 entryChild
      else some s
    some { s with
      label := aset s.label b (-1)
      labelEnd := aset s.labelEnd b (-1)
      blossomEndPs := aset s.blossomEndPs b []
      blossomChilds := aset s.blossomChilds b []
      blossomBase := aset s.blossomBase b (-1)
      blossomBestEdges := aset s.blossomBestEdges b []
      bestEdge := aset s.bestEdge b (-1)
      unusedBlossoms := s.unusedBlossoms ++ [b] }
termination_by structural fuel

/-- The child-detaching `forEach` of `expandBlossom` (lines 631–641). -/
def expandChilds (s : EdmondsState) (fuel : ℕ) (b : ℕ) (endStage : Bool)
    (cs : List ℕ) : Option EdmondsState :=
  match fuel, cs with
  | 0, _ => none
  | _ + 1, [] => some s
  | fuel + 1, c :: cs => do
    let s := { s with blossomParent := aset s.blossomParent c (-1) }
    let s ←
      if c < s.nVertex then some { s with inBlossom := aset s.inBlossom c c }
      else if endStage ∧ aget s.dualVar c 0 = 0 then
        expandBlossom s fuel c endStage
      else do
        let leaves ← blossomLeaves s fuel c
        some (leaves.foldl
          (fun st u => { st with inBlossom := aset st.inBlossom u c }) s)
    expandChilds s fuel b endStage cs
termination_by structural fuel

/-- The first unwinding loop of `expandBlossom` (lines 658–669): step `j`
twice per iteration towards `0`, relabelling the passed vertices `T` and
marking the traversed cycle edges allowed. -/
def expandLoop1 (s : EdmondsState) (fuel : ℕ) (b : ℕ) (j jStep : ℤ)
    (endpTrick : ℕ) (p : ℤ) : Option (EdmondsState × ℤ × ℤ) :=
  match fuel with
  | 0 => none
  | fuel + 1 =>
    if j = 0 then some (s, j, p)
    else do
      let s := { s with label := aset s.label (endpAt s (jsXor1 p)) 0 }
      let clear2 := endpAt s (jsXor1 (jsXorBit
        (jsAt (aget s.blossomEndPs b []) (j - (endpTrick : ℤ)) 0) endpTrick))
      let s := { s with label := aset s.label clear2 0 }
      let s ← assignLabel s fuel (endpAt s (jsXor1 p)) 2 p
      let allow1 := jsDiv2 (jsAt (aget s.blossomEndPs b [])
        (j - (endpTrick : ℤ)) 0)
      let s := { s with allowEdge := asetI s.allowEdge allow1 true }
      let j := j + jStep
      let p := jsXorBit (jsAt (aget s.blossomEndPs b []) (j - (endpTrick : ℤ)) 0)
        endpTrick
      let s := { s with allowEdge := asetI s.allowEdge (jsDiv2 p) true }
      expandLoop1 s fuel b (j + jStep) jStep endpTrick p
termination_by structural fuel

/-- The second relabelling loop of `expandBlossom` (lines 677–691): walk on to
the entry child, re-assigning `T` labels inside still-labelled children.  A
`find` miss (`?? UNMATCHED` in the source, unreachable on real runs) is
modelled as skipping the relabelling. -/
def expandLoop2 (s : EdmondsState) (fuel : ℕ) (b : ℕ) (j jStep : ℤ)
    (entryChild : ℕ) : Option EdmondsState :=
  match fuel with
  | 0 => none
  | fuel + 1 =>
    if jsAtO (aget s.blossomChilds b []) j = some entryChild then some s
    else
      let currentBv := (jsAtO (aget s.blossomChilds b []) j).getD 0
      if aget s.label currentBv 0 = 1 then
        expandLoop2 s fuel b (j + jStep) jStep entryChild
      else do
        let leaves ← blossomLeaves s fuel currentBv
        match leaves.find? (fun u => aget s.label u 0 ≠ 0) with
        | none => expandLoop2 s fuel b (j + jStep) jStep entryChild
        | some v => do
          let s := { s with label := aset s.label v 0 }
          let mateV := endpAt s (agetI s.mate (aget s.blossomBase currentBv (-1)) 0)
          let s := { s with label := aset s.label mateV 0 }
          let s ← assignLabel s fuel v 2 (aget s.labelEnd v (-1))
          expandLoop2 s fuel b (j + jStep) jStep entryChild
termination_by structural fuel

end

/-- The parent-chasing loop opening `augmentBlossom` (lines 704–707): find the
child of `b` containing `v`. -/
def abClimb (s : EdmondsState) : ℕ → ℕ → ℕ → Option ℕ
  | 0, _, _ => none
  | fuel + 1, t, b =>
    if aget s.blossomParent t (-1) = (b : ℤ) then some t
    else abClimb s fuel (aget s.blossomParent t (-1)).toNat b

mutual

/-- `augmentBlossom` (lines 703–749): flip the matching around the cycle of
blossom `b` so that `v` becomes the new base, recursing into sub-blossoms, and
rotate the child/endpoint lists accordingly. -/
def augmentBlossom (s : EdmondsState) (fuel : ℕ) (b v : ℕ) :
    Option EdmondsState :=
  match fuel with
  | 0 => none
  | fuel + 1 => do
    let t ← abClimb s (fuel + 1) v b
    let s ← if t > s.nVertex then augmentBlossom s fuel t v else some s
    let baseIndex := jsIndexOf (aget s.blossomChilds b []) t
    let jt : ℤ × ℤ × ℕ :=
      if baseIndex % 2 ≠ 0 then
        (baseIndex - ((aget s.blossomChilds b []).length : ℤ), 1, 0)
      else (baseIndex, -1, 1)
    let s ← augBLoop s fuel b jt.1 jt.2.1 jt.2.2
    let childs := aget s.blossomChilds b []
    let endPs := aget s.blossomEndPs b []
    let newChilds := jsSliceFrom childs baseIndex ++ jsSliceTo childs baseIndex
    let newEndPs := jsSliceFrom endPs baseIndex ++ jsSliceTo endPs baseIndex
    let s := { s with
      blossomChilds := aset s.blossomChilds b newChilds
      blossomEndPs := aset s.blossomEndPs b newEndPs }
    let newBase := aget s.blossomBase (aget (aget s.blossomChilds b []) 0 0) (-1)
    some { s with blossomBase := aset s.blossomBase b newBase }
termination_by structural fuel

/-- The cycle-flipping loop of `augmentBlossom` (lines 726–740). -/
def augBLoop (s : EdmondsState) (fuel : ℕ) (b : ℕ) (j jStep : ℤ)
    (endpTrick : ℕ) : Option EdmondsState :=
  match fuel with
  | 0 => none
  | fuel + 1 =>
    if j = 0 then some s
    else do
      let j := j + jStep
      let cB := jsAt (aget s.blossomChilds b []) j 0
      let p := jsXorBit (jsAt (aget s.blossomEndPs b []) (j - (endpTrick : ℤ)) 0)
        endpTrick
      let s ← if cB ≥ s.nVertex then augmentBlossom s fuel cB (endpAt s p)
        else some s
      let j := j + jStep
      let cB := jsAt (aget s.blossomChilds b []) j 0
      let s ← if cB ≥ s.nVertex then
          augmentBlossom s fuel cB (endpAt s (jsXor1 p))
        else some s
      let s := { s with mate := aset s.mate (endpAt s p) (jsXor1 p) }
      let s := { s with mate := aset s.mate (endpAt s (jsXor1 p)) p }
      augBLoop s fuel b j jStep endpTrick
termination_by structural fuel

end

/-- One endpoint's tree walk of `augmentMatching` (lines 767–785): match `sv`
through endpoint `p`, then climb towards the root flipping matched edges. -/
def augMLoop (s : EdmondsState) (fuel : ℕ) (sv : ℕ) (p : ℤ) :
    Option EdmondsState :=
  match fuel with
  | 0 => none
  | fuel + 1 => do
    let bs := aget s.inBlossom sv 0
    let s ← if bs ≥ s.nVertex then augmentBlossom s fuel bs sv else some s
    let s := { s with mate := aset s.mate sv p }
    if aget s.labelEnd bs (-1) = -1 then some s
    else
      let t := endpAt s (aget s.labelEnd bs (-1))
      let bt := aget s.inBlossom t 0
      let sv' := endpAt s (aget s.labelEnd bt (-1))
      let j := endpAt s (jsXor1 (aget s.labelEnd bt (-1)))
      let s ← if bt ≥ s.nVertex then augmentBlossom s fuel bt j else some s
      let s := { s with mate := aset s.mate j (aget s.labelEnd bt (-1)) }
      augMLoop s fuel sv' (jsXor1 (aget s.labelEnd bt (-1)))

/-- `augmentMatching` (lines 751–787): apply the augmenting path closed by
edge `k`, walking up the tree from both of its endpoints. -/
def augmentMatching (s : EdmondsState) (fuel k : ℕ) : Option EdmondsState := do
  let e := aget s.edges k (0, 0, 0)
  let s ← augMLoop s fuel e.1 ((2 * k + 1 : ℕ) : ℤ)
  augMLoop s fuel e.2.1 ((2 * k : ℕ) : ℤ)

/-- The lazy tightness check of the scan (lines 244–250): mark the edge
allowed when its slack is non-positive. -/
def lazyAllow (s : EdmondsState) (k : ℕ) : EdmondsState :=
  if ¬ aget s.allowEdge k false then
    (if slack s k ≤ 0 then { s with allowEdge := aset s.allowEdge k true }
     else s)
  else s

/-- The best-edge caching of the scan (lines 277–296): remember the edge when
slot `b` has no cached edge yet or this one has strictly smaller slack. -/
def bestEdgeUpdate (s : EdmondsState) (b : ℕ) (k : ℕ) : EdmondsState :=
  if aget s.bestEdge b (-1) = -1 ∨ slack s k < slackI s (aget s.bestEdge b (-1))
  then { s with bestEdge := aset s.bestEdge b (k : ℤ) }
  else s

/-- The edge scan of one queue-popped `S`-vertex (lines 237–297): for each
incident endpoint, lazily allow tight edges, grow the tree, contract a
blossom, augment (returning `true`), or cache best edges for the dual step. -/
def scanNeighbors (s : EdmondsState) (fuel : ℕ) (cv : ℕ) :
    List ℕ → Option (EdmondsState × Bool)
  | [] => some (s, false)
  | p :: rest =>
    let k := p / 2
    let adj := aget s.endpoint p 0
    if aget s.inBlossom cv 0 = aget s.inBlossom adj 0 then
      scanNeighbors s fuel cv rest
    else
      let s := lazyAllow s k
      if aget s.allowEdge k false then
        if labelOfVertex s adj = 0 then do
          let s ← assignLabel s fuel adj 2 ((p ^^^ 1 : ℕ) : ℤ)
          scanNeighbors s fuel cv rest
        else if labelOfVertex s adj = 1 then do
          let r ← scanBlossom s fuel cv adj
          let s := r.1
          if r.2 ≥ 0 then do
            let s ← addBlossom s fuel r.2.toNat k
            scanNeighbors s fuel cv rest
          else do
            let s ← augmentMatching s fuel k
            some (s, true)
        else if aget s.label adj 0 = 0 then
          let s := { s with
            label := aset s.label adj 2
            labelEnd := aset s.labelEnd adj ((p ^^^ 1 : ℕ) : ℤ) }
          scanNeighbors s fuel cv rest
        else scanNeighbors s fuel cv rest
      else
        if labelOfVertex s adj = 1 then
          scanNeighbors (bestEdgeUpdate s (aget s.inBlossom cv 0) k) fuel cv
            rest
        else if aget s.label adj 0 = 0 then
          scanNeighbors (bestEdgeUpdate s adj k) fuel cv rest
        else scanNeighbors s fuel cv rest

/-- The queue-draining search loop (lines 233–298): LIFO-pop vertices and
scan them until the queue empties or an augmentation happens. -/
def searchLoop (s : EdmondsState) (fuel : ℕ) : Option (EdmondsState × Bool) :=
  match fuel with
  | 0 => none
  | fuel + 1 =>
    match s.queue.getLast? with
    | none => some (s, false)
    | some cv =>
      let s := { s with queue := s.queue.dropLast }
      do
        let r ← scanNeighbors s fuel cv (aget s.neighbend cv [])
        if r.2 then some (r.1, true) else searchLoop r.1 fuel

/-- A dual-adjustment accumulator/candidate:
`(deltaType, delta, deltaEdge, deltaBlossom)`. -/
abbrev DeltaQuad := ℤ × ℚ × ℤ × ℤ

/-- `getMin(this.dualVar, 0, this.nVertex - 1)` (lines 311, 363, 808–810):
minimum dual variable over the original vertices. -/
def minVertexDual (s : EdmondsState) : ℚ := qMinList (s.dualVar.take s.nVertex)

/-- The delta computation of Phase 3 (lines 302–364), transcribed loop by
loop: Type 1 initialisation, then the Type 2, Type 3 and Type 4 scans, each
replacing the current quad only on a strictly smaller candidate, with the
final `max(0, min dual)` fallback when no candidate applied. -/
def computeDelta (s : EdmondsState) : DeltaQuad :=
  let acc : DeltaQuad :=
    if ¬s.maxCardinality then (1, minVertexDual s, -1, -1) else (-1, 0, -1, -1)
  let acc := (List.range s.nVertex).foldl
    (fun (acc : DeltaQuad) v =>
      if labelOfVertex s v = 0 ∧ aget s.bestEdge v (-1) ≠ -1 then
        let edgeSlack := slackI s (aget s.bestEdge v (-1))
        if acc.1 = -1 ∨ edgeSlack < acc.2.1 then
          (2, edgeSlack, aget s.bestEdge v (-1), acc.2.2.2)
        else acc
      else acc)
    acc
  let acc := (List.range (2 * s.nVertex)).foldl
    (fun (acc : DeltaQuad) b =>
      if aget s.blossomParent b (-1) = -1 ∧ aget s.label b 0 = 1 ∧
          aget s.bestEdge b (-1) ≠ -1 then
        let edgeSlack := slackI s (aget s.bestEdge b (-1))
        if acc.1 = -1 ∨ edgeSlack / 2 < acc.2.1 then
          (3, edgeSlack / 2, aget s.bestEdge b (-1), acc.2.2.2)
        else acc
      else acc)
    acc
  let acc := (List.range' s.nVertex s.nVertex).foldl
    (fun (acc : DeltaQuad) b =>
      if aget s.blossomBase b (-1) ≥ 0 ∧ aget s.blossomParent b (-1) = -1 ∧
          aget s.label b 0 = 2 ∧
          (acc.1 = -1 ∨ aget s.dualVar b 0 < acc.2.1) then
        (4, aget s.dualVar b 0, acc.2.2.1, (b : ℤ))
      else acc)
    acc
  if acc.1 = -1 then (1, max 0 (minVertexDual s), -1, -1) else acc

/-- Phase 4 (lines 366–385): apply `delta` to the vertex and top-level
blossom dual variables. -/
def applyDelta (s : EdmondsState) (delta : ℚ) : EdmondsState :=
  let s := (List.range s.nVertex).foldl
    (fun st v =>
      if labelOfVertex st v = 1 then
        { st with dualVar := aset st.dualVar v (aget st.dualVar v 0 - delta) }
      else if labelOfVertex st v = 2 then
        { st with dualVar := aset st.dualVar v (aget st.dualVar v 0 + delta) }
      else st)
    s
  (List.range' s.nVertex s.nVertex).foldl
    (fun st b =>
      if aget st.blossomBase b (-1) ≥ 0 ∧ aget st.blossomParent b (-1) = -1 then
        if aget st.label b 0 = 1 then
          { st with dualVar := aset st.dualVar b (aget st.dualVar b 0 + delta) }
        else if aget st.label b 0 = 2 then
          { st with dualVar := aset st.dualVar b (aget st.dualVar b 0 - delta) }
        else st
      else st)
    s

/-- Phases 3–5 of a stage iteration (lines 302–408): compute and apply the
dual adjustment, then act on the winning delta type.  Returns the state and
`true` when the stage must end (Type 1). -/
def dualAdjust (s : EdmondsState) (fuel : ℕ) : Option (EdmondsState × Bool) :=
  let q := computeDelta s
  let s := applyDelta s q.2.1
  if q.1 = 1 then some (s, true)
  else if q.1 = 2 then
    let s := { s with allowEdge := asetI s.allowEdge q.2.2.1 true }
    let e := agetI s.edges q.2.2.1 (0, 0, 0)
    let v1 := if labelOfVertex s e.1 = 0 then e.2.1 else e.1
    some ({ s with queue := s.queue ++ [v1] }, false)
  else if q.1 = 3 then
    let s := { s with allowEdge := asetI s.allowEdge q.2.2.1 true }
    let e := agetI s.edges q.2.2.1 (0, 0, 0)
    some ({ s with queue := s.queue ++ [e.1] }, false)
  else do
    let s ← expandBlossom s fuel q.2.2.2.toNat false
    some (s, false)

/-- The per-stage `while (true)` loop (lines 231–409): drain the search
queue, then adjust duals; stop on augmentation (`true`) or a Type 1 delta
(`false`). -/
def stageInner (s : EdmondsState) (fuel : ℕ) : Option (EdmondsState × Bool) :=
  match fuel with
  | 0 => none
  | fuel + 1 => do
    let r ← searchLoop s fuel
    if r.2 then some (r.1, true)
    else do
      let d ← dualAdjust r.1 fuel
      if d.2 then some (d.1, false) else stageInner d.1 fuel

/-- The per-stage reset (lines 216–221). -/
def resetStage (s : EdmondsState) : EdmondsState :=
  { s with
    label := List.replicate (2 * s.nVertex) 0
    bestEdge := List.replicate (2 * s.nVertex) (-1)
    blossomBestEdges := List.replicate (2 * s.nVertex) []
    allowEdge := List.replicate s.nEdge false
    queue := [] }

/-- Phase 1 of a stage (lines 224–228): every unmatched, unlabeled vertex
becomes an `S`-labelled tree root. -/
def rootLabels (s : EdmondsState) (fuel : ℕ) : List ℕ → Option EdmondsState
  | [] => some s
  | v :: vs => do
    let s ←
      if aget s.mate v 0 = -1 ∧ aget s.label (aget s.inBlossom v 0) 0 = 0 then
        assignLabel s fuel v 1 (-1)
      else some s
    rootLabels s fuel vs

/-- The end-of-stage cleanup (lines 413–422): expand every top-level
`S`-blossom whose dual variable reached zero. -/
def endStageExpand (s : EdmondsState) (fuel : ℕ) : List ℕ → Option EdmondsState
  | [] => some s
  | b :: bs => do
    let s ←
      if aget s.blossomParent b (-1) = -1 ∧ aget s.blossomBase b (-1) ≥ 0 ∧
          aget s.label b 0 = 1 ∧ aget s.dualVar b 0 = 0 then
        expandBlossom s fuel b true
      else some s
    endStageExpand s fuel bs

/-- The body of one stage after the per-stage reset (lines 224–422). -/
def stageBody (s : EdmondsState) (fuel : ℕ) : Option (EdmondsState × Bool) := do
  let s ← rootLabels s fuel (List.range s.nVertex)
  let r ← stageInner s fuel
  if r.2 then do
    let s ← endStageExpand r.1 fuel (List.range' r.1.nVertex r.1.nVertex)
    some (s, true)
  else some (r.1, false)

/-- One iteration of the outer stage loop (lines 215–422). -/
def doStage (s : EdmondsState) (fuel : ℕ) : Option (EdmondsState × Bool) :=
  stageBody (resetStage s) fuel

/-- The outer stage loop (lines 215–423), additionally recording the state at
the end of each executed stage (the quiescent points between stages).
Returns the final state and that trace. -/
def mainLoopT (s : EdmondsState) (fuel : ℕ) :
    ℕ → Option (EdmondsState × List EdmondsState)
  | 0 => some (s, [])
  | t + 1 => do
    let r ← doStage s fuel
    if r.2 then do
      let rest ← mainLoopT r.1 fuel t
      some (rest.1, r.1 :: rest.2)
    else some (r.1, [r.1])

/-- The final conversion (lines 425–429): rewrite each matched `mate` entry
from an endpoint index to the partner vertex id. -/
def finalizeMate (s : EdmondsState) : List ℤ :=
  ((List.range s.nVertex).foldl
    (fun st v =>
      if aget st.mate v 0 ≥ 0 then
        { st with mate := aset st.mate v ((endpAt st (aget st.mate v 0) : ℤ)) }
      else st)
    s).mate

/-- `maxWeightMatching` (lines 213–432). -/
def maxWeightMatching (s : EdmondsState) (fuel : ℕ) : Option (List ℤ) := do
  let r ← mainLoopT s fuel s.nVertex
  some (finalizeMate r.1)

/-- The algorithm on a validated, nonempty edge list (lines 52–53). -/
def blossomRun (edges : List BEdge) (maxCardinality : Bool) (fuel : ℕ) :
    Option (List ℤ) :=
  maxWeightMatching (mkEdmonds edges maxCardinality) fuel

/-- A JS number as seen by the validator: an exact finite value, `NaN`, or an
infinity.  (`typeof x === 'number'` holds for all four constructors.) -/
inductive JSNum where
  | fin (q : ℚ)
  | nan
  | posInf
  | negInf
  deriving DecidableEq

/-- A dynamic JS value as far as `blossom`'s validation can distinguish:
a number, an array, or anything else. -/
inductive JSVal where
  | num (x : JSNum)
  | arr (l : List JSVal)
  | other

/-- JS `Number.isInteger(x)`. -/
def jsIsInteger : JSVal → Bool
  | .num (.fin q) => q.den = 1
  | _ => false

/-- JS `x < 0` as used after `Number.isInteger(x)` has succeeded. -/
def jsIsNegative : JSVal → Bool
  | .num (.fin q) => q < 0
  | _ => false

/-- JS `typeof x === 'number' && isFinite(x)`. -/
def jsIsFiniteNumber : JSVal → Bool
  | .num (.fin _) => true
  | _ => false

/-- The per-edge validation checks of `blossom` (lines 39–50), in source
order; returns the error message of the first failing check. -/
def validateEdge (e : JSVal) : Option String :=
  match e with
  | .arr [v1, v2, w] =>
    if ¬(jsIsInteger v1 ∧ jsIsInteger v2) ∨ jsIsNegative v1 ∨ jsIsNegative v2
    then some "Vertex indices must be non-negative integers"
    else if ¬jsIsFiniteNumber w then some "Edge weights must be finite numbers"
    else none
  | _ => some "Each edge must be an array of [vertex1, vertex2, weight]"

/-- The validation loop of `blossom` (lines 39–50): first failing edge wins. -/
def validateEdges : List JSVal → Option String
  | [] => none
  | e :: es =>
    match validateEdge e with
    | some msg => some msg
    | none => validateEdges es

/-- Extraction of a validated edge into `(vertex1, vertex2, weight)`. -/
def toBEdge (e : JSVal) : BEdge :=
  match e with
  | .arr [.num (.fin q1), .num (.fin q2), .num (.fin w)] =>
    (q1.num.toNat, q2.num.toNat, w)
  | _ => (0, 0, 0)

/-- `maxCardinality || false` (line 52): an omitted/`undefined` flag becomes
`false`. -/
def jsOrFalse : Option Bool → Bool
  | none => false
  | some b => b

/-- The exported `blossom` entry point (lines 28–54): `Array.isArray` check,
empty-input early return, per-edge validation, then the matching engine.
`Except.error` is a thrown `Error`; the `Option` inside `Except.ok` is the
fuel-indexed algorithm result. -/
def blossomJS (fuel : ℕ) (input : JSVal) (maxCardinality : Option Bool) :
    Except String (Option (List ℤ)) :=
  match input with
  | .arr edges =>
    if edges.length = 0 then .ok (some [])
    else
      match validateEdges edges with
      | some msg => .error msg
      | none =>
        .ok (blossomRun (edges.map toBEdge) (jsOrFalse maxCardinality) fuel)
  | _ => .error "Edges must be an array"

/-! ## Spec-side definitions

The following definitions are written from the specification's wording, to be
compared with the transcribed code above. -/

/-- The claim's error taxonomy for a single edge value: not an array of
exactly 3 elements, a vertex id that is not a non-negative integer, or a
weight that is not a finite number. -/
def edgeBadSpec (e : JSVal) : Bool :=
  match e with
  | .arr [v1, v2, w] =>
    ¬(jsIsInteger v1 ∧ ¬jsIsNegative v1) ∨
    ¬(jsIsInteger v2 ∧ ¬jsIsNegative v2) ∨
    ¬jsIsFiniteNumber w
  | _ => true

/-- The claim's error taxonomy for the whole input: not an array, or some
element is a bad edge. -/
def inputBadSpec (x : JSVal) : Bool :=
  match x with
  | .arr l => l.any edgeBadSpec
  | _ => true

/-- The spec's `mate` symmetry formula as stated: whenever `mate[v] = p` with
`p ≥ 0`, then `mate[endpoint[p ^ 1]] = p ^ 1`. -/
def mateSymStated (s : EdmondsState) : Bool :=
  (List.range s.nVertex).all fun v =>
    let p := aget s.mate v 0
    p < 0 || (aget s.mate (endpAt s (jsXor1 p)) 0 == jsXor1 p)

/-- The corrected `mate` symmetry formula: whenever `mate[v] = p` with
`p ≥ 0`, then `mate[endpoint[p]] = p ^ 1` (the matched partner points back
through the opposite endpoint of the same edge). -/
def mateSymFixed (s : EdmondsState) : Bool :=
  (List.range s.nVertex).all fun v =>
    let p := aget s.mate v 0
    p < 0 || (aget s.mate (endpAt s p) 0 == jsXor1 p)

/-- The stage-boundary states of a run on `edges`, together with the final
state: the quiescent observation points of the algorithm's execution. -/
def stageStates (edges : List BEdge) (mc : Bool) (fuel : ℕ) :
    Option (List EdmondsState) :=
  (mainLoopT (mkEdmonds edges mc) fuel (calculateVertexCount edges)).map
    fun r => r.1 :: r.2

/-- All stage-boundary states of a run satisfy the corrected symmetry. -/
def mateSymFixedRun (edges : List BEdge) (mc : Bool) (fuel : ℕ) : Bool :=
  ((stageStates edges mc fuel).map fun l => l.all mateSymFixed) == some true

/-! ## C10: omitted flag behaves as `false` -/

/-- C10: for every input and fuel, calling the entry point with the
`maxCardinality` argument omitted/`undefined` (`none`) returns the same
result as passing `false` explicitly. -/
theorem blossomJS_none_eq_some_false :
    ∀ (fuel : ℕ) (input : JSVal),
      blossomJS fuel input none = blossomJS fuel input (some false) := by
  intro fuel input
  cases input <;> simp [blossomJS, jsOrFalse]

/-! ## C4: the validation error taxonomy -/

/-- A single edge passes validation exactly when the claim's taxonomy does
not flag it. -/
theorem validateEdge_none_iff (e : JSVal) :
    validateEdge e = none ↔ edgeBadSpec e = false := by
  cases e with
  | num x => simp [validateEdge, edgeBadSpec]
  | other => simp [validateEdge, edgeBadSpec]
  | arr l =>
    match l with
    | [] => simp [validateEdge, edgeBadSpec]
    | [a] => simp [validateEdge, edgeBadSpec]
    | [a, b] => simp [validateEdge, edgeBadSpec]
    | [a, b, c] =>
      cases h1 : jsIsInteger a <;> cases h2 : jsIsInteger b <;>
        cases h3 : jsIsNegative a <;> cases h4 : jsIsNegative b <;>
          cases h5 : jsIsFiniteNumber c <;>
            simp [validateEdge, edgeBadSpec, h1, h2, h3, h4, h5]
    | a :: b :: c :: d :: r => simp [validateEdge, edgeBadSpec]

/-- The validation loop fails exactly when some edge is flagged. -/
theorem validateEdges_isSome_iff (l : List JSVal) :
    (validateEdges l).isSome = l.any edgeBadSpec := by
  induction l with
  | nil => simp [validateEdges]
  | cons e es ih =>
    simp only [validateEdges, List.any_cons]
    cases h : validateEdge e with
    | some msg =>
      have : edgeBadSpec e = true := by
        by_contra hb
        simp only [Bool.not_eq_true] at hb
        rw [← validateEdge_none_iff] at hb
        rw [h] at hb
        exact Option.some_ne_none msg hb
      simp [this]
    | none =>
      have : edgeBadSpec e = false := (validateEdge_none_iff e).mp h
      simp [this, ih]

/-- C4: `blossom` throws exactly on the claim's error taxonomy — the input is
not an array, or some element is not a 3-element array, or some vertex id is
not a non-negative integer, or some weight is not a finite number (all
detected by the validation that precedes the matching engine in `blossomJS`);
and the empty edge list is not an error: it returns `[]`. -/
theorem blossomJS_error_iff :
    ∀ (fuel : ℕ) (input : JSVal) (mc : Option Bool),
      ((blossomJS fuel input mc).isOk = false ↔ inputBadSpec input = true) ∧
      blossomJS fuel (.arr []) mc = .ok (some []) := by
  intro fuel input mc
  constructor
  · cases input with
    | num x => simp [blossomJS, inputBadSpec, Except.isOk, Except.toBool]
    | other => simp [blossomJS, inputBadSpec, Except.isOk, Except.toBool]
    | arr l =>
      simp only [blossomJS, inputBadSpec]
      by_cases hl : l.length = 0
      · rw [List.length_eq_zero] at hl
        subst hl
        simp [Except.isOk, Except.toBool]
      · simp only [hl, if_false]
        cases h : validateEdges l with
        | some msg =>
          have := validateEdges_isSome_iff l
          rw [h] at this
          simp only [Option.isSome_some] at this
          simp [Except.isOk, Except.toBool, ← this]
        | none =>
          have := validateEdges_isSome_iff l
          rw [h] at this
          simp only [Option.isSome_none] at this
          simp [Except.isOk, Except.toBool, ← this]
  · simp [blossomJS]

/-- Witness for C4 at concrete inputs: a well-formed single edge is accepted,
a negative vertex id is rejected, and the empty list returns `[]`. -/
theorem blossomJS_error_iff_witness :
    ((blossomJS 200 (.arr [.arr [.num (.fin 0), .num (.fin 1), .num (.fin 1)]])
        none).isOk = true) ∧
    ((blossomJS 200 (.arr [.arr [.num (.fin (-1)), .num (.fin 1),
        .num (.fin 1)]]) none).isOk = false) ∧
    blossomJS 200 (.arr []) none = .ok (some []) := by
  refine ⟨?_, ?_, (blossomJS_error_iff 200 (.arr []) none).2⟩
  · have h := (blossomJS_error_iff 200
      (.arr [.arr [.num (.fin 0), .num (.fin 1), .num (.fin 1)]]) none).1
    have hbad : inputBadSpec
        (.arr [.arr [.num (.fin 0), .num (.fin 1), .num (.fin 1)]]) = false := by
      decide
    by_contra hok
    simp only [Bool.not_eq_true] at hok
    rw [h] at hok
    rw [hok] at hbad
    exact Bool.noConfusion hbad
  · exact (blossomJS_error_iff 200
      (.arr [.arr [.num (.fin (-1)), .num (.fin 1), .num (.fin 1)]]) none).1.mpr
      (by decide)

/-! ## Embedding sanity checks: the spec's reference vectors (spec §8) -/

example : blossomJS 200 (.arr []) none = .ok (some []) := by
  with_unfolding_all rfl

example : blossomRun [(0, 1, 1)] false 200 = some [1, 0] := by
  with_unfolding_all rfl

example : blossomRun [(1, 2, 10), (2, 3, 11)] false 200 = some [-1, -1, 3, 2] := by
  with_unfolding_all rfl

example : blossomRun [(1, 2, 5), (2, 3, 11), (3, 4, 5)] false 200 =
    some [-1, -1, 3, 2, -1] := by
  with_unfolding_all rfl

example : blossomRun [(1, 2, 2), (1, 3, -2), (2, 3, 1), (2, 4, -1), (3, 4, -6)]
    false 300 = some [-1, 2, 1, -1, -1] := by
  with_unfolding_all rfl

example : blossomRun [(1, 2, 2), (1, 3, -2), (2, 3, 1), (2, 4, -1), (3, 4, -6)]
    true 300 = some [-1, 3, 4, 1, 2] := by
  with_unfolding_all rfl

example : blossomRun [(1, 2, 9), (1, 3, 9), (2, 3, 10), (2, 4, 8), (3, 5, 8),
    (4, 5, 10), (5, 6, 6)] false 400 = some [-1, 3, 4, 1, 2, 6, 5] := by
  with_unfolding_all rfl

/-! ## C6: the `mate` symmetry invariant -/

/-- Counterexample to C6 as stated: on the single-edge graph `[(0,1,1)]` the
algorithm reaches (at the quiescent point after its stage loop, before the
final endpoint conversion) the internal state `mate = [1, 0]`, i.e.
`mate[0] = 1 ≥ 0` — but `mate[endpoint[1 ^ 1]] = mate[endpoint[0]] = mate[0]
= 1 ≠ 0 = 1 ^ 1`, so the spec's formula `mate[endpoint[p ^ 1]] = p ^ 1`
fails at a reachable point of execution. -/
theorem mateSymStated_counterexample :
    (mainLoopT (mkEdmonds [(0, 1, 1)] false) 200 2).map
      (fun r => (r.1.mate, mateSymStated r.1)) = some ([1, 0], false) := by
  with_unfolding_all rfl

/-- C6 amended: the symmetry relation maintained by the code indexes
`endpoint` with `p` itself, not `p ^ 1` — whenever `mate[v] = p ≥ 0`, then
`mate[endpoint[p]] = p ^ 1` — and it holds at the quiescent stage-boundary
points of execution (not between the individual writes of an augmentation):
verified here at every stage boundary and at termination of the runs on the
spec's reference graphs (§8), in both weight and cardinality modes. -/
theorem mateSymFixed_stage_boundaries :
    mateSymFixedRun [(0, 1, 1)] false 200 = true ∧
    mateSymFixedRun [(1, 2, 10), (2, 3, 11)] false 200 = true ∧
    mateSymFixedRun [(1, 2, 5), (2, 3, 11), (3, 4, 5)] false 200 = true ∧
    mateSymFixedRun [(1, 2, 2), (1, 3, -2), (2, 3, 1), (2, 4, -1), (3, 4, -6)]
      false 300 = true ∧
    mateSymFixedRun [(1, 2, 2), (1, 3, -2), (2, 3, 1), (2, 4, -1), (3, 4, -6)]
      true 300 = true ∧
    mateSymFixedRun [(1, 2, 9), (1, 3, 9), (2, 3, 10), (2, 4, 8), (3, 5, 8),
      (4, 5, 10), (5, 6, 6)] false 400 = true := by
  refine ⟨?_, ?_, ?_, ?_, ?_, ?_⟩ <;> with_unfolding_all rfl

/-! ## C9: initial dual variables and non-negative initial slack -/

/-- The accumulator never exceeds the weight fold of `calculateMaxWeight`. -/
theorem le_foldl_maxW (l : List BEdge) (a : ℚ) :
    a ≤ l.foldl (fun acc e => max acc e.2.2) a := by
  induction l generalizing a with
  | nil => simp
  | cons e es ih =>
    exact le_trans (le_max_left a e.2.2) (ih (max a e.2.2))

/-- Every edge weight is bounded by the weight fold of `calculateMaxWeight`. -/
theorem mem_le_foldl_maxW (l : List BEdge) (e : BEdge) (he : e ∈ l) :
    ∀ a : ℚ, e.2.2 ≤ l.foldl (fun acc f => max acc f.2.2) a := by
  induction l with
  | nil => cases he
  | cons f fs ih =>
    intro a
    rcases List.mem_cons.mp he with h | h
    · subst h
      exact le_trans (le_max_right a e.2.2) (le_foldl_maxW fs _)
    · exact ih h (max a f.2.2)

/-- The weight fold of `calculateMaxWeight` is attained: it is the initial
accumulator or one of the edge weights. -/
theorem foldl_maxW_attained (l : List BEdge) :
    ∀ a : ℚ, l.foldl (fun acc e => max acc e.2.2) a = a ∨
      l.foldl (fun acc e => max acc e.2.2) a ∈ l.map (fun e => e.2.2) := by
  induction l with
  | nil => intro a; left; rfl
  | cons f fs ih =>
    intro a
    rw [List.foldl_cons]
    rcases ih (max a f.2.2) with h | h
    · rcases max_choice a f.2.2 with hm | hm
      · left; rw [h, hm]
      · right
        rw [List.map_cons, List.mem_cons]
        left
        rw [h, hm]
    · right
      rw [List.map_cons, List.mem_cons]
      right
      exact h

/-- The accumulator never exceeds the fold of `calculateVertexCount`. -/
theorem le_foldl_cvc (l : List BEdge) (a : ℕ) :
    a ≤ l.foldl (fun acc e => max acc (max (e.1 + 1) (e.2.1 + 1))) a := by
  induction l generalizing a with
  | nil => simp
  | cons e es ih =>
    exact le_trans (le_max_left _ _) (ih _)

/-- Both endpoints of every edge are below the fold of
`calculateVertexCount`. -/
theorem mem_lt_foldl_cvc (l : List BEdge) (e : BEdge) (he : e ∈ l) :
    ∀ a : ℕ, e.1 < l.foldl (fun acc f => max acc (max (f.1 + 1) (f.2.1 + 1))) a ∧
      e.2.1 < l.foldl (fun acc f => max acc (max (f.1 + 1) (f.2.1 + 1))) a := by
  induction l with
  | nil => cases he
  | cons f fs ih =>
    intro a
    rcases List.mem_cons.mp he with h | h
    · subst h
      have hbound : max (e.1 + 1) (e.2.1 + 1) ≤
          fs.foldl (fun acc f => max acc (max (f.1 + 1) (f.2.1 + 1)))
            (max a (max (e.1 + 1) (e.2.1 + 1))) :=
        le_trans (le_max_right _ _) (le_foldl_cvc fs _)
      constructor
      · exact lt_of_lt_of_le (Nat.lt_succ_self _)
          (le_trans (le_trans (le_max_left _ _) hbound) (le_refl _))
      · exact lt_of_lt_of_le (Nat.lt_succ_self _)
          (le_trans (le_trans (le_max_right _ _) hbound) (le_refl _))
    · exact ih h _

/-- Reading the initial `dualVar` block below `nVertex` yields `maxWeight`. -/
theorem aget_dual_left (n : ℕ) (mw : ℚ) (v : ℕ) (hv : v < n) :
    aget (List.replicate n mw ++ List.replicate n (0 : ℚ)) v 0 = mw := by
  unfold aget
  rw [List.getD_append _ _ _ _ (by simpa using hv)]
  rw [List.getD_eq_getElem _ _ (by simpa using hv)]
  simp

/-- Reading the initial `dualVar` block in `[nVertex, 2 nVertex)` yields `0`. -/
theorem aget_dual_right (n : ℕ) (mw : ℚ) (b : ℕ) (hb1 : n ≤ b)
    (hb2 : b < 2 * n) :
    aget (List.replicate n mw ++ List.replicate n (0 : ℚ)) b 0 = 0 := by
  unfold aget
  rw [List.getD_append_right _ _ _ _ (by simpa using hb1)]
  rw [List.getD_eq_getElem _ _ (by simp; omega)]
  simp

/-- C9: after graph setup and before the first stage, `maxWeight` is
`max(0, all edge weights)` (it is non-negative, bounds every weight, and is 0
or an edge weight), `dualVar[v] = maxWeight` for every original vertex `v`,
`dualVar[b] = 0` for every blossom slot `b ∈ [n, 2n)`, and consequently every
edge's initial slack `dualVar[i] + dualVar[j] - 2*weight` is non-negative. -/
theorem mkEdmonds_init_duals :
    ∀ (edges : List BEdge) (mc : Bool),
      (0 ≤ (mkEdmonds edges mc).maxWeight ∧
        (∀ e ∈ edges, e.2.2 ≤ (mkEdmonds edges mc).maxWeight) ∧
        ((mkEdmonds edges mc).maxWeight = 0 ∨
          (mkEdmonds edges mc).maxWeight ∈ edges.map (fun e => e.2.2))) ∧
      (∀ v, v < (mkEdmonds edges mc).nVertex →
        aget (mkEdmonds edges mc).dualVar v 0 = (mkEdmonds edges mc).maxWeight) ∧
      (∀ b, (mkEdmonds edges mc).nVertex ≤ b →
        b < 2 * (mkEdmonds edges mc).nVertex →
        aget (mkEdmonds edges mc).dualVar b 0 = 0) ∧
      (∀ k, k < edges.length → 0 ≤ slack (mkEdmonds edges mc) k) := by
  intro edges mc
  have hmw : (mkEdmonds edges mc).maxWeight = calculateMaxWeight edges := rfl
  have hnv : (mkEdmonds edges mc).nVertex = calculateVertexCount edges := rfl
  have hdv : (mkEdmonds edges mc).dualVar =
      List.replicate (calculateVertexCount edges) (calculateMaxWeight edges) ++
        List.replicate (calculateVertexCount edges) 0 := rfl
  have hedges : (mkEdmonds edges mc).edges = edges := rfl
  refine ⟨⟨le_foldl_maxW edges 0, ?_, ?_⟩, ?_, ?_, ?_⟩
  · intro e he
    rw [hmw]
    exact mem_le_foldl_maxW edges e he 0
  · rw [hmw]
    exact foldl_maxW_attained edges 0
  · intro v hv
    rw [hdv, hmw]
    exact aget_dual_left _ _ v (by rw [hnv] at hv; exact hv)
  · intro b hb1 hb2
    rw [hdv]
    exact aget_dual_right _ _ b (by rw [hnv] at hb1; exact hb1)
      (by rw [hnv] at hb2; exact hb2)
  · intro k hk
    have hget : aget (mkEdmonds edges mc).edges k (0, 0, 0) = edges[k] := by
      rw [hedges]
      unfold aget
      exact List.getD_eq_getElem _ _ hk
    have hmem : edges[k] ∈ edges := List.getElem_mem hk
    have hcv := mem_lt_foldl_cvc edges edges[k] hmem 0
    have h1 : aget (mkEdmonds edges mc).dualVar edges[k].1 0 =
        calculateMaxWeight edges := by
      rw [hdv]
      exact aget_dual_left _ _ _ hcv.1
    have h2 : aget (mkEdmonds edges mc).dualVar edges[k].2.1 0 =
        calculateMaxWeight edges := by
      rw [hdv]
      exact aget_dual_left _ _ _ hcv.2
    have hw : edges[k].2.2 ≤ calculateMaxWeight edges :=
      mem_le_foldl_maxW edges edges[k] hmem 0
    simp only [slack, hget]
    rw [h1, h2]
    linarith

/-- Witness for C9 at the single-edge graph `[(0,1,1)]`: the initial vertex
dual is the maximum weight `1`, the blossom slot dual is `0`, and the edge's
initial slack is non-negative. -/
theorem mkEdmonds_init_duals_witness :
    aget (mkEdmonds [(0, 1, 1)] false).dualVar 0 0 =
      (mkEdmonds [(0, 1, 1)] false).maxWeight ∧
    aget (mkEdmonds [(0, 1, 1)] false).dualVar 2 0 = 0 ∧
    0 ≤ slack (mkEdmonds [(0, 1, 1)] false) 0 :=
  ⟨(mkEdmonds_init_duals [(0, 1, 1)] false).2.1 0 (by norm_num [mkEdmonds, calculateVertexCount]),
   (mkEdmonds_init_duals [(0, 1, 1)] false).2.2.1 2
     (by norm_num [mkEdmonds, calculateVertexCount])
     (by norm_num [mkEdmonds, calculateVertexCount]),
   (mkEdmonds_init_duals [(0, 1, 1)] false).2.2.2 0 (by norm_num)⟩

/-! ## C7: the dual-adjustment delta as a first-minimum over candidates -/

/-- The replacement rule the Phase 3 loops implement: a candidate is taken
only when nothing was taken yet or it is strictly smaller, and the loop
preserves the field it does not write (`deltaBlossom` for Types 2/3,
`deltaEdge` for Type 4). -/
def codeApply (acc c : DeltaQuad) : DeltaQuad :=
  if acc.1 = -1 ∨ c.2.1 < acc.2.1 then
    if c.1 = 4 then (c.1, c.2.1, acc.2.2.1, c.2.2.2)
    else (c.1, c.2.1, c.2.2.1, acc.2.2.2)
  else acc

/-- The spec's replacement rule: a strictly smaller candidate replaces the
whole quad, so the earliest minimal candidate wins. -/
def specApply (acc c : DeltaQuad) : DeltaQuad :=
  if acc.1 = -1 ∨ c.2.1 < acc.2.1 then c else acc

/-- The Type 2 candidate of an unlabeled vertex with a cached best edge:
the slack of that edge. -/
def type2Cand (s : EdmondsState) (v : ℕ) : Option DeltaQuad :=
  if labelOfVertex s v = 0 ∧ aget s.bestEdge v (-1) ≠ -1 then
    some (2, slackI s (aget s.bestEdge v (-1)), aget s.bestEdge v (-1), -1)
  else none

/-- The Type 3 candidate of a top-level `S`-blossom with a cached best edge:
half the slack of that edge. -/
def type3Cand (s : EdmondsState) (b : ℕ) : Option DeltaQuad :=
  if aget s.blossomParent b (-1) = -1 ∧ aget s.label b 0 = 1 ∧
      aget s.bestEdge b (-1) ≠ -1 then
    some (3, slackI s (aget s.bestEdge b (-1)) / 2, aget s.bestEdge b (-1), -1)
  else none

/-- The Type 4 candidate of a top-level `T`-blossom: its dual variable. -/
def type4Cand (s : EdmondsState) (b : ℕ) : Option DeltaQuad :=
  if aget s.blossomBase b (-1) ≥ 0 ∧ aget s.blossomParent b (-1) = -1 ∧
      aget s.label b 0 = 2 then
    some (4, aget s.dualVar b 0, -1, (b : ℤ))
  else none

/-- The full candidate list in the claim's fixed scan order: the Type 1
candidate (only without the cardinality flag), then Type 2 vertices in index
order, then Type 3 blossoms in index order, then Type 4 blossoms in index
order. -/
def deltaCands (s : EdmondsState) : List DeltaQuad :=
  (if ¬s.maxCardinality then [((1 : ℤ), minVertexDual s, (-1 : ℤ), (-1 : ℤ))]
   else []) ++
  (List.range s.nVertex).filterMap (type2Cand s) ++
  (List.range (2 * s.nVertex)).filterMap (type3Cand s) ++
  (List.range' s.nVertex s.nVertex).filterMap (type4Cand s)

/-- The earliest minimum of a candidate list (`none` on the empty list). -/
def firstMinQuad : List DeltaQuad → Option DeltaQuad
  | [] => none
  | c :: cs => some (cs.foldl (fun acc x => if x.2.1 < acc.2.1 then x else acc) c)

/-- The claim's description of the dual adjustment: the earliest minimal
candidate over the four bounds in scan order, falling back to Type 1 with
`max(0, minimum vertex dual)` when no candidate applies at all. -/
def computeDeltaSpec (s : EdmondsState) : DeltaQuad :=
  match firstMinQuad (deltaCands s) with
  | some c => c
  | none => (1, max 0 (minVertexDual s), -1, -1)

/-- Folding over a `filterMap` is folding the generator's hits. -/
theorem foldl_filterMap_quad (g : ℕ → Option DeltaQuad)
    (f : DeltaQuad → DeltaQuad → DeltaQuad) (l : List ℕ) :
    ∀ a : DeltaQuad, (l.filterMap g).foldl f a =
      l.foldl (fun acc x => match g x with | some c => f acc c | none => acc) a := by
  induction l with
  | nil => intro a; rfl
  | cons x xs ih =>
    intro a
    cases hg : g x with
    | some c => simp [List.filterMap_cons, hg, ih]
    | none => simp [List.filterMap_cons, hg, ih]

/-- The Type 2 scan body is the candidate replacement rule. -/
theorem body2_eq (s : EdmondsState) (acc : DeltaQuad) (v : ℕ) :
    (if labelOfVertex s v = 0 ∧ aget s.bestEdge v (-1) ≠ -1 then
        let edgeSlack := slackI s (aget s.bestEdge v (-1))
        if acc.1 = -1 ∨ edgeSlack < acc.2.1 then
          ((2 : ℤ), edgeSlack, aget s.bestEdge v (-1), acc.2.2.2)
        else acc
      else acc) =
    (match type2Cand s v with
      | some c => codeApply acc c
      | none => acc) := by
  unfold type2Cand codeApply
  by_cases h : labelOfVertex s v = 0 ∧ aget s.bestEdge v (-1) ≠ -1
  · by_cases hc : acc.1 = -1 ∨ slackI s (aget s.bestEdge v (-1)) < acc.2.1 <;>
      simp [h, hc]
  · simp [h]

/-- The Type 3 scan body is the candidate replacement rule. -/
theorem body3_eq (s : EdmondsState) (acc : DeltaQuad) (b : ℕ) :
    (if aget s.blossomParent b (-1) = -1 ∧ aget s.label b 0 = 1 ∧
          aget s.bestEdge b (-1) ≠ -1 then
        let edgeSlack := slackI s (aget s.bestEdge b (-1))
        if acc.1 = -1 ∨ edgeSlack / 2 < acc.2.1 then
          ((3 : ℤ), edgeSlack / 2, aget s.bestEdge b (-1), acc.2.2.2)
        else acc
      else acc) =
    (match type3Cand s b with
      | some c => codeApply acc c
      | none => acc) := by
  unfold type3Cand codeApply
  by_cases h : aget s.blossomParent b (-1) = -1 ∧ aget s.label b 0 = 1 ∧
      aget s.bestEdge b (-1) ≠ -1
  · by_cases hc : acc.1 = -1 ∨ slackI s (aget s.bestEdge b (-1)) / 2 < acc.2.1 <;>
      simp [h, hc]
  · simp [h]

/-- The Type 4 scan body is the candidate replacement rule. -/
theorem body4_eq (s : EdmondsState) (acc : DeltaQuad) (b : ℕ) :
    (if aget s.blossomBase b (-1) ≥ 0 ∧ aget s.blossomParent b (-1) = -1 ∧
          aget s.label b 0 = 2 ∧ (acc.1 = -1 ∨ aget s.dualVar b 0 < acc.2.1) then
        ((4 : ℤ), aget s.dualVar b 0, acc.2.2.1, (b : ℤ))
      else acc) =
    (match type4Cand s b with
      | some c => codeApply acc c
      | none => acc) := by
  unfold type4Cand codeApply
  by_cases hs : aget s.blossomBase b (-1) ≥ 0 ∧ aget s.blossomParent b (-1) = -1 ∧
      aget s.label b 0 = 2
  · by_cases hc : acc.1 = -1 ∨ aget s.dualVar b 0 < acc.2.1
    · have : aget s.blossomBase b (-1) ≥ 0 ∧ aget s.blossomParent b (-1) = -1 ∧
          aget s.label b 0 = 2 ∧ (acc.1 = -1 ∨ aget s.dualVar b 0 < acc.2.1) :=
        ⟨hs.1, hs.2.1, hs.2.2, hc⟩
      simp [this, hs, hc]
    · have : ¬(aget s.blossomBase b (-1) ≥ 0 ∧ aget s.blossomParent b (-1) = -1 ∧
          aget s.label b 0 = 2 ∧ (acc.1 = -1 ∨ aget s.dualVar b 0 < acc.2.1)) := by
        intro hcon
        exact hc hcon.2.2.2
      simp [this, hs, hc]
  · have : ¬(aget s.blossomBase b (-1) ≥ 0 ∧ aget s.blossomParent b (-1) = -1 ∧
        aget s.label b 0 = 2 ∧ (acc.1 = -1 ∨ aget s.dualVar b 0 < acc.2.1)) := by
      intro hcon
      exact hs ⟨hcon.1, hcon.2.1, hcon.2.2.1⟩
    simp [this, hs]

/-- The Type 2 loop as a fold of the replacement rule over the candidates. -/
theorem fold2_eq (s : EdmondsState) (a : DeltaQuad) :
    (List.range s.nVertex).foldl
      (fun (acc : DeltaQuad) v =>
        if labelOfVertex s v = 0 ∧ aget s.bestEdge v (-1) ≠ -1 then
          let edgeSlack := slackI s (aget s.bestEdge v (-1))
          if acc.1 = -1 ∨ edgeSlack < acc.2.1 then
            (2, edgeSlack, aget s.bestEdge v (-1), acc.2.2.2)
          else acc
        else acc) a =
    ((List.range s.nVertex).filterMap (type2Cand s)).foldl codeApply a := by
  rw [foldl_filterMap_quad]
  exact List.foldl_ext _ _ a (fun acc v _ => body2_eq s acc v)

/-- The Type 3 loop as a fold of the replacement rule over the candidates. -/
theorem fold3_eq (s : EdmondsState) (a : DeltaQuad) :
    (List.range (2 * s.nVertex)).foldl
      (fun (acc : DeltaQuad) b =>
        if aget s.blossomParent b (-1) = -1 ∧ aget s.label b 0 = 1 ∧
            aget s.bestEdge b (-1) ≠ -1 then
          let edgeSlack := slackI s (aget s.bestEdge b (-1))
          if acc.1 = -1 ∨ edgeSlack / 2 < acc.2.1 then
            (3, edgeSlack / 2, aget s.bestEdge b (-1), acc.2.2.2)
          else acc
        else acc) a =
    ((List.range (2 * s.nVertex)).filterMap (type3Cand s)).foldl codeApply a := by
  rw [foldl_filterMap_quad]
  exact List.foldl_ext _ _ a (fun acc b _ => body3_eq s acc b)

/-- The Type 4 loop as a fold of the replacement rule over the candidates. -/
theorem fold4_eq (s : EdmondsState) (a : DeltaQuad) :
    (List.range' s.nVertex s.nVertex).foldl
      (fun (acc : DeltaQuad) b =>
        if aget s.blossomBase b (-1) ≥ 0 ∧ aget s.blossomParent b (-1) = -1 ∧
            aget s.label b 0 = 2 ∧
            (acc.1 = -1 ∨ aget s.dualVar b 0 < acc.2.1) then
          (4, aget s.dualVar b 0, acc.2.2.1, (b : ℤ))
        else acc) a =
    ((List.range' s.nVertex s.nVertex).filterMap (type4Cand s)).foldl codeApply
      a := by
  rw [foldl_filterMap_quad]
  exact List.foldl_ext _ _ a (fun acc b _ => body4_eq s acc b)

/-- The Type 1 initialisation is the fold of the replacement rule over the
optional Type 1 candidate. -/
theorem init_eq (s : EdmondsState) :
    (if ¬s.maxCardinality then
        ((1 : ℤ), minVertexDual s, (-1 : ℤ), (-1 : ℤ))
      else ((-1 : ℤ), (0 : ℚ), (-1 : ℤ), (-1 : ℤ))) =
    (if ¬s.maxCardinality then
        [((1 : ℤ), minVertexDual s, (-1 : ℤ), (-1 : ℤ))]
      else []).foldl codeApply ((-1 : ℤ), (0 : ℚ), (-1 : ℤ), (-1 : ℤ)) := by
  by_cases h : s.maxCardinality <;> simp [h, codeApply]

/-- `computeDelta` is the fold of the replacement rule over the full
candidate list, with the Type 1 fallback when nothing was taken. -/
theorem computeDelta_eq_fold (s : EdmondsState) :
    computeDelta s =
      (if ((deltaCands s).foldl codeApply
            ((-1 : ℤ), (0 : ℚ), (-1 : ℤ), (-1 : ℤ))).1 = -1 then
        ((1 : ℤ), max 0 (minVertexDual s), (-1 : ℤ), (-1 : ℤ))
      else (deltaCands s).foldl codeApply
        ((-1 : ℤ), (0 : ℚ), (-1 : ℤ), (-1 : ℤ))) := by
  have h0 : computeDelta s =
      (fun r : DeltaQuad =>
        if r.1 = -1 then
          ((1 : ℤ), max 0 (minVertexDual s), (-1 : ℤ), (-1 : ℤ))
        else r)
      ((List.range' s.nVertex s.nVertex).foldl
        (fun (acc : DeltaQuad) b =>
          if aget s.blossomBase b (-1) ≥ 0 ∧ aget s.blossomParent b (-1) = -1 ∧
              aget s.label b 0 = 2 ∧
              (acc.1 = -1 ∨ aget s.dualVar b 0 < acc.2.1) then
            (4, aget s.dualVar b 0, acc.2.2.1, (b : ℤ))
          else acc)
        ((List.range (2 * s.nVertex)).foldl
          (fun (acc : DeltaQuad) b =>
            if aget s.blossomParent b (-1) = -1 ∧ aget s.label b 0 = 1 ∧
                aget s.bestEdge b (-1) ≠ -1 then
              let edgeSlack := slackI s (aget s.bestEdge b (-1))
              if acc.1 = -1 ∨ edgeSlack / 2 < acc.2.1 then
                (3, edgeSlack / 2, aget s.bestEdge b (-1), acc.2.2.2)
              else acc
            else acc)
          ((List.range s.nVertex).foldl
            (fun (acc : DeltaQuad) v =>
              if labelOfVertex s v = 0 ∧ aget s.bestEdge v (-1) ≠ -1 then
                let edgeSlack := slackI s (aget s.bestEdge v (-1))
                if acc.1 = -1 ∨ edgeSlack < acc.2.1 then
                  (2, edgeSlack, aget s.bestEdge v (-1), acc.2.2.2)
                else acc
              else acc)
            (if ¬s.maxCardinality then
              ((1 : ℤ), minVertexDual s, (-1 : ℤ), (-1 : ℤ))
            else ((-1 : ℤ), (0 : ℚ), (-1 : ℤ), (-1 : ℤ)))))) := rfl
  rw [h0, init_eq s, fold2_eq s, fold3_eq s, fold4_eq s]
  unfold deltaCands
  rw [List.foldl_append, List.foldl_append, List.foldl_append]

/-- On candidates that are not Type 4 and carry no blossom, the code's
replacement rule coincides with the spec's and keeps `deltaBlossom` clear. -/
theorem foldA_eq :
    ∀ (cs : List DeltaQuad), (∀ c ∈ cs, c.1 ≠ 4 ∧ c.2.2.2 = -1) →
      ∀ a : DeltaQuad, a.2.2.2 = -1 →
        cs.foldl codeApply a = cs.foldl specApply a ∧
        (cs.foldl codeApply a).2.2.2 = -1 := by
  intro cs
  induction cs with
  | nil => intro _ a ha; exact ⟨rfl, ha⟩
  | cons c cs ih =>
    intro h a ha
    have hc := h c (List.mem_cons_self c cs)
    have hcs : ∀ x ∈ cs, x.1 ≠ 4 ∧ x.2.2.2 = -1 := fun x hx =>
      h x (List.mem_cons_of_mem c hx)
    have hstep1 : codeApply a c = specApply a c := by
      unfold codeApply specApply
      by_cases hcond : a.1 = -1 ∨ c.2.1 < a.2.1
      · rw [if_pos hcond, if_pos hcond, if_neg hc.1, ha, ← hc.2]
      · rw [if_neg hcond, if_neg hcond]
    have hstep2 : (codeApply a c).2.2.2 = -1 := by
      unfold codeApply
      by_cases hcond : a.1 = -1 ∨ c.2.1 < a.2.1
      · rw [if_pos hcond, if_neg hc.1]
        exact ha
      · rw [if_neg hcond]
        exact ha
    rcases ih hcs (codeApply a c) hstep2 with ⟨he, hd⟩
    constructor
    · rw [List.foldl_cons, List.foldl_cons, he, hstep1]
    · rw [List.foldl_cons]
      exact hd

/-- On Type 4 candidates, the code's and the spec's folds agree on type,
delta and blossom, and on the edge whenever the result is not Type 4. -/
theorem foldB_agrees :
    ∀ (cs : List DeltaQuad), (∀ c ∈ cs, c.1 = 4) →
      ∀ a b : DeltaQuad, a.1 = b.1 → a.2.1 = b.2.1 → a.2.2.2 = b.2.2.2 →
        (a.1 ≠ 4 → a.2.2.1 = b.2.2.1) →
        (cs.foldl codeApply a).1 = (cs.foldl specApply b).1 ∧
        (cs.foldl codeApply a).2.1 = (cs.foldl specApply b).2.1 ∧
        (cs.foldl codeApply a).2.2.2 = (cs.foldl specApply b).2.2.2 ∧
        ((cs.foldl codeApply a).1 ≠ 4 →
          (cs.foldl codeApply a).2.2.1 = (cs.foldl specApply b).2.2.1) := by
  intro cs
  induction cs with
  | nil => intro _ a b h1 h2 h3 h4; exact ⟨h1, h2, h3, h4⟩
  | cons c cs ih =>
    intro h a b h1 h2 h3 h4
    have hc := h c (List.mem_cons_self c cs)
    have hcs : ∀ x ∈ cs, x.1 = 4 := fun x hx => h x (List.mem_cons_of_mem c hx)
    rw [List.foldl_cons, List.foldl_cons]
    by_cases hcond : a.1 = -1 ∨ c.2.1 < a.2.1
    · have hcond' : b.1 = -1 ∨ c.2.1 < b.2.1 := by rw [← h1, ← h2]; exact hcond
      have hca : codeApply a c = (c.1, c.2.1, a.2.2.1, c.2.2.2) := by
        unfold codeApply
        rw [if_pos hcond, if_pos hc]
      have hcb : specApply b c = c := by
        unfold specApply
        rw [if_pos hcond']
      rw [hca, hcb]
      exact ih hcs _ _ rfl rfl rfl (fun hne => absurd hc hne)
    · have hcond' : ¬(b.1 = -1 ∨ c.2.1 < b.2.1) := by rw [← h1, ← h2]; exact hcond
      have hca : codeApply a c = a := by unfold codeApply; rw [if_neg hcond]
      have hcb : specApply b c = b := by unfold specApply; rw [if_neg hcond']
      rw [hca, hcb]
      exact ih hcs a b h1 h2 h3 h4

/-- A Type 2 candidate has type `2` and a clear blossom field. -/
theorem type2Cand_fact (s : EdmondsState) (v : ℕ) (c : DeltaQuad)
    (h : type2Cand s v = some c) : c.1 = 2 ∧ c.2.2.2 = -1 := by
  unfold type2Cand at h
  by_cases hg : labelOfVertex s v = 0 ∧ aget s.bestEdge v (-1) ≠ -1
  · rw [if_pos hg, Option.some.injEq] at h
    subst h
    exact ⟨rfl, rfl⟩
  · rw [if_neg hg] at h
    cases h

/-- A Type 3 candidate has type `3` and a clear blossom field. -/
theorem type3Cand_fact (s : EdmondsState) (b : ℕ) (c : DeltaQuad)
    (h : type3Cand s b = some c) : c.1 = 3 ∧ c.2.2.2 = -1 := by
  unfold type3Cand at h
  by_cases hg : aget s.blossomParent b (-1) = -1 ∧ aget s.label b 0 = 1 ∧
      aget s.bestEdge b (-1) ≠ -1
  · rw [if_pos hg, Option.some.injEq] at h
    subst h
    exact ⟨rfl, rfl⟩
  · rw [if_neg hg] at h
    cases h

/-- A Type 4 candidate has type `4`. -/
theorem type4Cand_fact (s : EdmondsState) (b : ℕ) (c : DeltaQuad)
    (h : type4Cand s b = some c) : c.1 = 4 := by
  unfold type4Cand at h
  by_cases hg : aget s.blossomBase b (-1) ≥ 0 ∧ aget s.blossomParent b (-1) = -1 ∧
      aget s.label b 0 = 2
  · rw [if_pos hg, Option.some.injEq] at h
    subst h
    rfl
  · rw [if_neg hg] at h
    cases h

/-- Every candidate in the scan list has a genuine type (never `-1`). -/
theorem deltaCands_ne_neg1 (s : EdmondsState) :
    ∀ c ∈ deltaCands s, c.1 ≠ -1 := by
  intro c hc
  unfold deltaCands at hc
  rcases List.mem_append.mp hc with hc | hc4
  · rcases List.mem_append.mp hc with hc | hc3
    · rcases List.mem_append.mp hc with hc1 | hc2
      · by_cases hmc : s.maxCardinality
        · rw [if_neg (by simpa using hmc)] at hc1
          cases hc1
        · rw [if_pos (by simpa using hmc)] at hc1
          have hceq := List.mem_singleton.mp hc1
          subst hceq
          norm_num
      · rcases List.mem_filterMap.mp hc2 with ⟨v, _, hv⟩
        rw [(type2Cand_fact s v c hv).1]
        decide
    · rcases List.mem_filterMap.mp hc3 with ⟨b, _, hb⟩
      rw [(type3Cand_fact s b c hb).1]
      decide
  · rcases List.mem_filterMap.mp hc4 with ⟨b, _, hb⟩
    rw [type4Cand_fact s b c hb]
    decide

/-- With a non-`-1` accumulator over non-`-1` candidates, the spec's
replacement rule is the strict-minimum rule. -/
theorem specApply_eq_min :
    ∀ (cs : List DeltaQuad), (∀ x ∈ cs, x.1 ≠ -1) →
      ∀ a : DeltaQuad, a.1 ≠ -1 →
        cs.foldl specApply a =
          cs.foldl (fun acc x => if x.2.1 < acc.2.1 then x else acc) a := by
  intro cs
  induction cs with
  | nil => intro _ a _; rfl
  | cons c cs ih =>
    intro h a ha
    have hc := h c (List.mem_cons_self c cs)
    have hcs : ∀ x ∈ cs, x.1 ≠ -1 := fun x hx => h x (List.mem_cons_of_mem c hx)
    rw [List.foldl_cons, List.foldl_cons]
    have hstep : specApply a c = if c.2.1 < a.2.1 then c else a := by
      unfold specApply
      by_cases hlt : c.2.1 < a.2.1
      · rw [if_pos (Or.inr hlt), if_pos hlt]
      · rw [if_neg (by simp [ha, hlt]), if_neg hlt]
    rw [hstep]
    by_cases hlt : c.2.1 < a.2.1
    · rw [if_pos hlt]
      exact ih hcs c hc
    · rw [if_neg hlt]
      exact ih hcs a ha

/-- The strict-minimum fold returns the accumulator or a list element. -/
theorem foldl_min_mem :
    ∀ (cs : List DeltaQuad) (c : DeltaQuad),
      cs.foldl (fun acc x => if x.2.1 < acc.2.1 then x else acc) c ∈ c :: cs := by
  intro cs
  induction cs with
  | nil => intro c; exact List.mem_singleton.mpr rfl
  | cons d cs ih =>
    intro c
    rw [List.foldl_cons]
    by_cases hlt : d.2.1 < c.2.1
    · rw [if_pos hlt]
      rcases List.mem_cons.mp (ih d) with h | h
      · rw [h]; exact List.mem_cons_of_mem c (List.mem_cons_self d cs)
      · exact List.mem_cons_of_mem c (List.mem_cons_of_mem d h)
    · rw [if_neg hlt]
      rcases List.mem_cons.mp (ih c) with h | h
      · rw [h]; exact List.mem_cons_self c _
      · exact List.mem_cons_of_mem c (List.mem_cons_of_mem d h)

/-- `computeDeltaSpec` as a fold of the spec's replacement rule with the
Type 1 fallback. -/
theorem computeDeltaSpec_eq_fold (s : EdmondsState) :
    computeDeltaSpec s =
      (if ((deltaCands s).foldl specApply
            ((-1 : ℤ), (0 : ℚ), (-1 : ℤ), (-1 : ℤ))).1 = -1 then
        ((1 : ℤ), max 0 (minVertexDual s), (-1 : ℤ), (-1 : ℤ))
      else (deltaCands s).foldl specApply
        ((-1 : ℤ), (0 : ℚ), (-1 : ℤ), (-1 : ℤ))) := by
  unfold computeDeltaSpec
  cases hL : deltaCands s with
  | nil => rfl
  | cons c cs =>
    have hne : ∀ x ∈ c :: cs, x.1 ≠ -1 := by
      rw [← hL]; exact deltaCands_ne_neg1 s
    have hcne : c.1 ≠ -1 := hne c (List.mem_cons_self c cs)
    have hfirst : specApply ((-1 : ℤ), (0 : ℚ), (-1 : ℤ), (-1 : ℤ)) c = c := by
      unfold specApply
      rw [if_pos (Or.inl rfl)]
    have hmin : (c :: cs).foldl specApply
        ((-1 : ℤ), (0 : ℚ), (-1 : ℤ), (-1 : ℤ)) =
        cs.foldl (fun acc x => if x.2.1 < acc.2.1 then x else acc) c := by
      rw [List.foldl_cons, hfirst]
      exact specApply_eq_min cs (fun x hx => hne x (List.mem_cons_of_mem c hx))
        c hcne
    have hresne : (cs.foldl (fun acc x => if x.2.1 < acc.2.1 then x else acc)
        c).1 ≠ -1 :=
      hne _ (foldl_min_mem cs c)
    rw [hmin, if_neg hresne]
    simp [firstMinQuad]

/-- C7: `computeDelta` (the Phase 3 transcription) computes exactly the
claim's description `computeDeltaSpec`: the earliest strictly-minimal
candidate over the Type 1 bound (weight mode only), the Type 2 vertices in
index order, the Type 3 blossoms in index order and the Type 4 blossoms in
index order, with fallback `(1, max 0 (min vertex dual))` when no candidate
applies.  Agreement covers the delta type, the delta value and the chosen
blossom unconditionally, and the chosen edge whenever the winning type is not
4 (on a Type 4 win the code leaves a stale `deltaEdge` behind, which Phase 5
never reads). -/
theorem computeDelta_refines_spec :
    ∀ s : EdmondsState,
      (computeDelta s).1 = (computeDeltaSpec s).1 ∧
      (computeDelta s).2.1 = (computeDeltaSpec s).2.1 ∧
      (computeDelta s).2.2.2 = (computeDeltaSpec s).2.2.2 ∧
      ((computeDelta s).1 ≠ 4 →
        (computeDelta s).2.2.1 = (computeDeltaSpec s).2.2.1) := by
  intro s
  have hA : ∀ c ∈ ((if ¬s.maxCardinality then
        [((1 : ℤ), minVertexDual s, (-1 : ℤ), (-1 : ℤ))] else []) ++
      (List.range s.nVertex).filterMap (type2Cand s) ++
      (List.range (2 * s.nVertex)).filterMap (type3Cand s)),
      c.1 ≠ 4 ∧ c.2.2.2 = -1 := by
    intro c hc
    rcases List.mem_append.mp hc with hc | hc3
    · rcases List.mem_append.mp hc with hc1 | hc2
      · by_cases hmc : s.maxCardinality
        · rw [if_neg (by simpa using hmc)] at hc1
          cases hc1
        · rw [if_pos (by simpa using hmc)] at hc1
          have hceq := List.mem_singleton.mp hc1
          subst hceq
          norm_num
      · rcases List.mem_filterMap.mp hc2 with ⟨v, _, hv⟩
        have hf := type2Cand_fact s v c hv
        rw [hf.1]
        exact ⟨by norm_num, hf.2⟩
    · rcases List.mem_filterMap.mp hc3 with ⟨b, _, hb⟩
      have hf := type3Cand_fact s b c hb
      rw [hf.1]
      exact ⟨by norm_num, hf.2⟩
  have hB : ∀ c ∈ (List.range' s.nVertex s.nVertex).filterMap (type4Cand s),
      c.1 = 4 := by
    intro c hc
    rcases List.mem_filterMap.mp hc with ⟨b, _, hb⟩
    exact type4Cand_fact s b c hb
  have hAeq := foldA_eq _ hA ((-1 : ℤ), (0 : ℚ), (-1 : ℤ), (-1 : ℤ)) rfl
  have hag := foldB_agrees _ hB
    (((if ¬s.maxCardinality then
        [((1 : ℤ), minVertexDual s, (-1 : ℤ), (-1 : ℤ))] else []) ++
      (List.range s.nVertex).filterMap (type2Cand s) ++
      (List.range (2 * s.nVertex)).filterMap (type3Cand s)).foldl codeApply
      ((-1 : ℤ), (0 : ℚ), (-1 : ℤ), (-1 : ℤ)))
    (((if ¬s.maxCardinality then
        [((1 : ℤ), minVertexDual s, (-1 : ℤ), (-1 : ℤ))] else []) ++
      (List.range s.nVertex).filterMap (type2Cand s) ++
      (List.range (2 * s.nVertex)).filterMap (type3Cand s)).foldl specApply
      ((-1 : ℤ), (0 : ℚ), (-1 : ℤ), (-1 : ℤ)))
    (by rw [hAeq.1]) (by rw [hAeq.1]) (by rw [hAeq.1])
    (fun _ => by rw [hAeq.1])
  rw [computeDelta_eq_fold, computeDeltaSpec_eq_fold]
  have hsplitC : (deltaCands s).foldl codeApply
      ((-1 : ℤ), (0 : ℚ), (-1 : ℤ), (-1 : ℤ)) =
      ((List.range' s.nVertex s.nVertex).filterMap (type4Cand s)).foldl
        codeApply
        (((if ¬s.maxCardinality then
            [((1 : ℤ), minVertexDual s, (-1 : ℤ), (-1 : ℤ))] else []) ++
          (List.range s.nVertex).filterMap (type2Cand s) ++
          (List.range (2 * s.nVertex)).filterMap (type3Cand s)).foldl codeApply
          ((-1 : ℤ), (0 : ℚ), (-1 : ℤ), (-1 : ℤ))) := by
    unfold deltaCands
    rw [List.foldl_append]
  have hsplitS : (deltaCands s).foldl specApply
      ((-1 : ℤ), (0 : ℚ), (-1 : ℤ), (-1 : ℤ)) =
      ((List.range' s.nVertex s.nVertex).filterMap (type4Cand s)).foldl
        specApply
        (((if ¬s.maxCardinality then
            [((1 : ℤ), minVertexDual s, (-1 : ℤ), (-1 : ℤ))] else []) ++
          (List.range s.nVertex).filterMap (type2Cand s) ++
          (List.range (2 * s.nVertex)).filterMap (type3Cand s)).foldl specApply
          ((-1 : ℤ), (0 : ℚ), (-1 : ℤ), (-1 : ℤ))) := by
    unfold deltaCands
    rw [List.foldl_append]
  rw [hsplitC, hsplitS]
  rcases hag with ⟨g1, g2, g3, g4⟩
  by_cases hneg : (((List.range' s.nVertex s.nVertex).filterMap
      (type4Cand s)).foldl codeApply
      (((if ¬s.maxCardinality then
          [((1 : ℤ), minVertexDual s, (-1 : ℤ), (-1 : ℤ))] else []) ++
        (List.range s.nVertex).filterMap (type2Cand s) ++
        (List.range (2 * s.nVertex)).filterMap (type3Cand s)).foldl codeApply
        ((-1 : ℤ), (0 : ℚ), (-1 : ℤ), (-1 : ℤ)))).1 = -1
  · have hneg' := hneg
    rw [g1] at hneg'
    rw [if_pos hneg, if_pos hneg']
    exact ⟨rfl, rfl, rfl, fun _ => rfl⟩
  · have hneg' := hneg
    rw [g1] at hneg'
    rw [if_neg hneg, if_neg hneg']
    exact ⟨g1, g2, g3, g4⟩

/-- Witness for C7 at the freshly initialised single-edge state: the winning
delta is Type 1 with value `maxWeight = 1`, identically on both sides, and
the edge fields agree since the type is not 4. -/
theorem computeDelta_refines_spec_witness :
    computeDelta (mkEdmonds [(0, 1, 1)] false) =
      ((1 : ℤ), (1 : ℚ), (-1 : ℤ), (-1 : ℤ)) ∧
    (computeDelta (mkEdmonds [(0, 1, 1)] false)).2.2.1 =
      (computeDeltaSpec (mkEdmonds [(0, 1, 1)] false)).2.2.1 :=
  ⟨by with_unfolding_all rfl,
   (computeDelta_refines_spec (mkEdmonds [(0, 1, 1)] false)).2.2.2
     (of_decide_eq_true (by with_unfolding_all rfl))⟩

/-! ## C8: `allowEdge` is monotone within a stage -/

/-- Setting a cell to `true` never turns another `true` cell off. -/
theorem aget_aset_true (l : List Bool) (k k' : ℕ)
    (h : aget l k false = true) : aget (aset l k' true) k false = true := by
  unfold aget aset
  unfold aget at h
  by_cases hk : k' = k
  · subst hk
    by_cases hlen : k' < l.length
    · rw [List.getD_eq_getElem _ _ (by simpa using hlen)]
      simp
    · rw [List.getD_eq_default] at h ⊢
      · exact h
      · simpa using hlen
      · simpa using hlen
  · rw [List.getD_eq_getD_get?, List.get?_set_ne _ _ hk, ← List.getD_eq_getD_get?]
    exact h

/-- Setting a cell to `true` at an integer index never turns a `true` cell
off. -/
theorem aget_asetI_true (l : List Bool) (k : ℕ) (k' : ℤ)
    (h : aget l k false = true) : aget (asetI l k' true) k false = true := by
  unfold asetI
  by_cases hk : 0 ≤ k'
  · rw [if_pos hk]
    exact aget_aset_true l k k'.toNat h
  · rw [if_neg hk]
    exact h

/-- `assignLabel` never touches `allowEdge`. -/
theorem assignLabel_allowEdge :
    ∀ (fuel : ℕ) (s : EdmondsState) (v : ℕ) (t labelingEdge : ℤ)
      (s' : EdmondsState), assignLabel s fuel v t labelingEdge = some s' →
      s'.allowEdge = s.allowEdge := by
  intro fuel
  induction fuel with
  | zero => intro s v t le s' h; simp [assignLabel] at h
  | succ n ih =>
    intro s v t le s' h
    simp only [assignLabel] at h
    split at h
    · rcases Option.bind_eq_some.mp h with ⟨leaves, hb, hsome⟩
      rcases Option.some.injEq .. |>.mp hsome with rfl
      rfl
    · split at h
      · have h2 := ih _ _ _ _ _ h
        exact h2
      · rcases Option.some.injEq .. |>.mp h with rfl
        rfl

/-- The `scanBlossom` walk never touches `allowEdge`. -/
theorem scanBlossomLoop_allowEdge :
    ∀ (fuel : ℕ) (s : EdmondsState) (c1 c2 : Option ℕ) (path : List ℕ)
      (r : EdmondsState × List ℕ × ℤ),
      scanBlossomLoop s fuel c1 c2 path = some r →
      r.1.allowEdge = s.allowEdge := by
  intro fuel
  induction fuel with
  | zero => intro s c1 c2 path r h; simp [scanBlossomLoop] at h
  | succ n ih =>
    intro s c1 c2 path r h
    simp only [scanBlossomLoop] at h
    split at h
    · rcases Option.some.injEq .. |>.mp h with rfl
      rfl
    · split at h
      · rcases Option.some.injEq .. |>.mp h with rfl
        rfl
      · split at h
        · have h2 := ih _ _ _ _ _ h
          exact h2
        · have h2 := ih _ _ _ _ _ h
          exact h2

/-- A fold whose step preserves `allowEdge` preserves it globally. -/
theorem foldl_allowEdge_eq {β : Type} (f : EdmondsState → β → EdmondsState)
    (hf : ∀ st x, (f st x).allowEdge = st.allowEdge) :
    ∀ (l : List β) (s : EdmondsState), (l.foldl f s).allowEdge = s.allowEdge := by
  intro l
  induction l with
  | nil => intro s; rfl
  | cons x xs ih =>
    intro s
    rw [List.foldl_cons, ih, hf]

/-- `scanBlossom` never touches `allowEdge`. -/
theorem scanBlossom_allowEdge (fuel : ℕ) (s : EdmondsState) (v w : ℕ)
    (r : EdmondsState × ℤ) (h : scanBlossom s fuel v w = some r) :
    r.1.allowEdge = s.allowEdge := by
  unfold scanBlossom at h
  rcases Option.bind_eq_some.mp h with ⟨t, ht, hsome⟩
  rcases Option.some.injEq .. |>.mp hsome with rfl
  have h1 := scanBlossomLoop_allowEdge fuel s _ _ _ t ht
  have h2 := foldl_allowEdge_eq
    (fun st bi => { st with label := aset st.label bi 1 })
    (fun _ _ => rfl) t.2.1 t.1
  rw [h2, h1]

/-- The `addBlossom` tree walks never touch `allowEdge`. -/
theorem addBlossomWalk_allowEdge :
    ∀ (fuel : ℕ) (s : EdmondsState) (vB bb b : ℕ) (path : List ℕ)
      (endPs : List ℤ) (ux : Bool) (r : EdmondsState × List ℕ × List ℤ),
      addBlossomWalk s fuel vB bb b path endPs ux = some r →
      r.1.allowEdge = s.allowEdge := by
  intro fuel
  induction fuel with
  | zero => intro s vB bb b path endPs ux r h; simp [addBlossomWalk] at h
  | succ n ih =>
    intro s vB bb b path endPs ux r h
    simp only [addBlossomWalk] at h
    split at h
    · rcases Option.some.injEq .. |>.mp h with rfl
      rfl
    · have h2 := ih _ _ _ _ _ _ _ _ h
      exact h2

/-- The best-edge merging of `addBlossom` never touches `allowEdge`. -/
theorem addBlossomBest_allowEdge :
    ∀ (fuel : ℕ) (s : EdmondsState) (b : ℕ) (path : List ℕ) (bET : List ℤ)
      (r : EdmondsState × List ℤ),
      addBlossomBest s fuel b path bET = some r →
      r.1.allowEdge = s.allowEdge := by
  intro fuel
  induction fuel with
  | zero => intro s b path bET r h; simp [addBlossomBest] at h
  | succ n ih =>
    intro s b path bET r h
    cases path with
    | nil =>
      simp only [addBlossomBest] at h
      rcases Option.some.injEq .. |>.mp h with rfl
      rfl
    | cons bv rest =>
      simp only [addBlossomBest] at h
      split at h
      · rcases Option.bind_eq_some.mp h with ⟨pl, hpl, h⟩
        rcases Option.bind_eq_some.mp h with ⟨y, hy, h⟩
        have h2 := ih _ _ _ _ _ h
        exact h2
      · have h2 := ih _ _ _ _ _ h
        exact h2

/-- `addBlossom` never touches `allowEdge`. -/
theorem addBlossom_allowEdge (fuel : ℕ) (s : EdmondsState) (base k : ℕ)
    (s' : EdmondsState) (h : addBlossom s fuel base k = some s') :
    s'.allowEdge = s.allowEdge := by
  unfold addBlossom at h
  rcases Option.bind_eq_some.mp h with ⟨b, hb, h⟩
  rcases Option.bind_eq_some.mp h with ⟨r1, hr1, h⟩
  rcases Option.bind_eq_some.mp h with ⟨r2, hr2, h⟩
  rcases Option.bind_eq_some.mp h with ⟨leaves, hl, h⟩
  rcases Option.bind_eq_some.mp h with ⟨r3, hr3, h⟩
  rcases Option.some.injEq .. |>.mp h with rfl
  have e1 := addBlossomWalk_allowEdge _ _ _ _ _ _ _ _ _ hr1
  have e2 := addBlossomWalk_allowEdge _ _ _ _ _ _ _ _ _ hr2
  have e3 := addBlossomBest_allowEdge _ _ _ _ _ _ hr3
  have e4 := foldl_allowEdge_eq (addBlossomRelabel b)
    (fun st u => by unfold addBlossomRelabel; split <;> rfl) leaves
  refine e3.trans ?_
  refine (e4 _).trans ?_
  exact e2.trans e1

/-- Neither `augmentBlossom` nor its cycle loop touches `allowEdge`. -/
theorem augment_allowEdge :
    ∀ fuel : ℕ,
      (∀ (s : EdmondsState) (b v : ℕ) (s' : EdmondsState),
        augmentBlossom s fuel b v = some s' → s'.allowEdge = s.allowEdge) ∧
      (∀ (s : EdmondsState) (b : ℕ) (j jStep : ℤ) (et : ℕ)
        (s' : EdmondsState),
        augBLoop s fuel b j jStep et = some s' →
        s'.allowEdge = s.allowEdge) := by
  intro fuel
  induction fuel with
  | zero =>
    constructor
    · intro s b v s' h; simp [augmentBlossom] at h
    · intro s b j jStep et s' h; simp [augBLoop] at h
  | succ n ih =>
    constructor
    · intro s b v s' h
      simp only [augmentBlossom] at h
      rcases Option.bind_eq_some.mp h with ⟨t, ht, h⟩
      split at h
      · rcases Option.bind_eq_some.mp h with ⟨s1, hs1, h⟩
        rcases Option.bind_eq_some.mp h with ⟨s2, hs2, h⟩
        rcases Option.some.injEq .. |>.mp h with rfl
        have e1 := ih.1 _ _ _ _ hs1
        have e2 := ih.2 _ _ _ _ _ _ hs2
        exact e2.trans e1
      · rcases Option.bind_eq_some.mp h with ⟨s1, hs1, h⟩
        rcases Option.bind_eq_some.mp h with ⟨s2, hs2, h⟩
        rcases Option.some.injEq .. |>.mp h with rfl
        have e2 := ih.2 _ _ _ _ _ _ hs2
        rcases Option.some.injEq .. |>.mp hs1 with rfl
        exact e2
    · intro s b j jStep et s' h
      simp only [augBLoop] at h
      split at h
      · rcases Option.some.injEq .. |>.mp h with rfl; rfl
      · split at h
        · rcases Option.bind_eq_some.mp h with ⟨s1, hs1, h⟩
          have e1 := ih.1 _ _ _ _ hs1
          split at h
          · rcases Option.bind_eq_some.mp h with ⟨s2, hs2, h⟩
            have e2 := ih.1 _ _ _ _ hs2
            have e3 := ih.2 _ _ _ _ _ _ h
            exact e3.trans (e2.trans e1)
          · rcases Option.bind_eq_some.mp h with ⟨s2, hs2, h⟩
            rcases Option.some.injEq .. |>.mp hs2 with rfl
            have e3 := ih.2 _ _ _ _ _ _ h
            exact e3.trans e1
        · rcases Option.bind_eq_some.mp h with ⟨s1, hs1, h⟩
          rcases Option.some.injEq .. |>.mp hs1 with rfl
          split at h
          · rcases Option.bind_eq_some.mp h with ⟨s2, hs2, h⟩
            have e2 := ih.1 _ _ _ _ hs2
            have e3 := ih.2 _ _ _ _ _ _ h
            exact e3.trans e2
          · rcases Option.bind_eq_some.mp h with ⟨s2, hs2, h⟩
            rcases Option.some.injEq .. |>.mp hs2 with rfl
            have e3 := ih.2 _ _ _ _ _ _ h
            exact e3

/-- The `augmentMatching` walk never touches `allowEdge`. -/
theorem augMLoop_allowEdge :
    ∀ (fuel : ℕ) (s : EdmondsState) (sv : ℕ) (p : ℤ) (s' : EdmondsState),
      augMLoop s fuel sv p = some s' → s'.allowEdge = s.allowEdge := by
  intro fuel
  induction fuel with
  | zero => intro s sv p s' h; simp [augMLoop] at h
  | succ n ih =>
    intro s sv p s' h
    simp only [augMLoop] at h
    split at h
    · rcases Option.bind_eq_some.mp h with ⟨s1, hs1, h⟩
      have e1 := (augment_allowEdge n).1 _ _ _ _ hs1
      split at h
      · rcases Option.some.injEq .. |>.mp h with rfl
        exact e1
      · split at h
        · rcases Option.bind_eq_some.mp h with ⟨s2, hs2, h⟩
          have e2 := (augment_allowEdge n).1 _ _ _ _ hs2
          have e3 := ih _ _ _ _ h
          exact e3.trans (e2.trans e1)
        · rcases Option.bind_eq_some.mp h with ⟨s2, hs2, h⟩
          rcases Option.some.injEq .. |>.mp hs2 with rfl
          have e3 := ih _ _ _ _ h
          exact e3.trans e1
    · rcases Option.bind_eq_some.mp h with ⟨s1, hs1, h⟩
      rcases Option.some.injEq .. |>.mp hs1 with rfl
      split at h
      · rcases Option.some.injEq .. |>.mp h with rfl
        rfl
      · split at h
        · rcases Option.bind_eq_some.mp h with ⟨s2, hs2, h⟩
          have e2 := (augment_allowEdge n).1 _ _ _ _ hs2
          have e3 := ih _ _ _ _ h
          exact e3.trans e2
        · rcases Option.bind_eq_some.mp h with ⟨s2, hs2, h⟩
          rcases Option.some.injEq .. |>.mp hs2 with rfl
          have e3 := ih _ _ _ _ h
          exact e3

/-- `augmentMatching` never touches `allowEdge`. -/
theorem augmentMatching_allowEdge (fuel k : ℕ) (s s' : EdmondsState)
    (h : augmentMatching s fuel k = some s') : s'.allowEdge = s.allowEdge := by
  unfold augmentMatching at h
  rcases Option.bind_eq_some.mp h with ⟨s1, hs1, h⟩
  exact (augMLoop_allowEdge _ _ _ _ _ h).trans (augMLoop_allowEdge _ _ _ _ _ hs1)

/-- Within-stage monotonicity of the `allowEdge` flags: every flag already
`true` stays `true`. -/
def allowMono (s s' : EdmondsState) : Prop :=
  ∀ k, aget s.allowEdge k false = true → aget s'.allowEdge k false = true

/-- Monotonicity is reflexive. -/
theorem allowMono_refl (s : EdmondsState) : allowMono s s := fun _ hk => hk

/-- Monotonicity composes. -/
theorem allowMono_trans {s1 s2 s3 : EdmondsState} (h1 : allowMono s1 s2)
    (h2 : allowMono s2 s3) : allowMono s1 s3 := fun k hk => h2 k (h1 k hk)

/-- An unchanged `allowEdge` field is monotone. -/
theorem allowMono_of_eq {s s' : EdmondsState} (h : s'.allowEdge = s.allowEdge) :
    allowMono s s' := fun k hk => by rw [h]; exact hk

/-- The whole `expandBlossom` family only ever turns `allowEdge` flags on. -/
theorem expand_allowMono :
    ∀ fuel : ℕ,
      (∀ (s : EdmondsState) (b : ℕ) (es : Bool) (s' : EdmondsState),
        expandBlossom s fuel b es = some s' → allowMono s s') ∧
      (∀ (s : EdmondsState) (b : ℕ) (es : Bool) (cs : List ℕ)
        (s' : EdmondsState),
        expandChilds s fuel b es cs = some s' → allowMono s s') ∧
      (∀ (s : EdmondsState) (b : ℕ) (j jStep : ℤ) (et : ℕ) (p : ℤ)
        (r : EdmondsState × ℤ × ℤ),
        expandLoop1 s fuel b j jStep et p = some r → allowMono s r.1) ∧
      (∀ (s : EdmondsState) (b : ℕ) (j jStep : ℤ) (ec : ℕ)
        (s' : EdmondsState),
        expandLoop2 s fuel b j jStep ec = some s' → allowMono s s') := by
  intro fuel
  induction fuel with
  | zero =>
    refine ⟨?_, ?_, ?_, ?_⟩
    · intro s b es s' h; simp [expandBlossom] at h
    · intro s b es cs s' h; simp [expandChilds] at h
    · intro s b j jStep et p r h; simp [expandLoop1] at h
    · intro s b j jStep ec s' h; simp [expandLoop2] at h
  | succ n ih =>
    refine ⟨?_, ?_, ?_, ?_⟩
    · intro s b es s' h
      simp only [expandBlossom] at h
      rcases Option.bind_eq_some.mp h with ⟨s1, hs1, h⟩
      have e1 := ih.2.1 _ _ _ _ _ hs1
      split at h
      · rcases Option.bind_eq_some.mp h with ⟨r, hr, h⟩
        have e2 := ih.2.2.1 _ _ _ _ _ _ _ hr
        rcases Option.bind_eq_some.mp h with ⟨s2, hs2, h⟩
        have e3 := ih.2.2.2 _ _ _ _ _ _ hs2
        rcases Option.some.injEq .. |>.mp h with rfl
        exact allowMono_trans e1 (allowMono_trans e2 e3)
      · rcases Option.bind_eq_some.mp h with ⟨s2, hs2, h⟩
        rcases Option.some.injEq .. |>.mp hs2 with rfl
        rcases Option.some.injEq .. |>.mp h with rfl
        exact e1
    · intro s b es cs s' h
      cases cs with
      | nil =>
        simp only [expandChilds] at h
        rcases Option.some.injEq .. |>.mp h with rfl
        exact allowMono_refl s
      | cons c cs =>
        simp only [expandChilds] at h
        split at h
        · rcases Option.bind_eq_some.mp h with ⟨s1, hs1, h⟩
          rcases Option.some.injEq .. |>.mp hs1 with rfl
          have e2 := ih.2.1 _ _ _ _ _ h
          exact e2
        · split at h
          · rcases Option.bind_eq_some.mp h with ⟨s1, hs1, h⟩
            have e1 := ih.1 _ _ _ _ hs1
            have e2 := ih.2.1 _ _ _ _ _ h
            exact allowMono_trans (allowMono_trans (allowMono_refl _) e1) e2
          · rcases Option.bind_eq_some.mp h with ⟨leaves, hl, h⟩
            rcases Option.bind_eq_some.mp h with ⟨s1, hs1, h⟩
            rcases Option.some.injEq .. |>.mp hs1 with rfl
            have e2 := ih.2.1 _ _ _ _ _ h
            refine allowMono_trans (allowMono_of_eq ?_) e2
            exact foldl_allowEdge_eq
              (fun st u => { st with inBlossom := aset st.inBlossom u c })
              (fun _ _ => rfl) leaves _
    · intro s b j jStep et p r h
      simp only [expandLoop1] at h
      split at h
      · rcases Option.some.injEq .. |>.mp h with rfl
        exact allowMono_refl s
      · rcases Option.bind_eq_some.mp h with ⟨s1, hs1, h⟩
        have e1 := assignLabel_allowEdge _ _ _ _ _ _ hs1
        have e2 := ih.2.2.1 _ _ _ _ _ _ _ h
        refine allowMono_trans (fun k hk => ?_) e2
        apply aget_asetI_true
        apply aget_asetI_true
        rw [e1]
        exact hk
    · intro s b j jStep ec s' h
      simp only [expandLoop2] at h
      split at h
      · rcases Option.some.injEq .. |>.mp h with rfl
        exact allowMono_refl s
      · split at h
        · have e2 := ih.2.2.2 _ _ _ _ _ _ h
          exact e2
        · rcases Option.bind_eq_some.mp h with ⟨leaves, hl, h⟩
          split at h
          · have e2 := ih.2.2.2 _ _ _ _ _ _ h
            exact e2
          · rcases Option.bind_eq_some.mp h with ⟨s1, hs1, h⟩
            have e1 := assignLabel_allowEdge _ _ _ _ _ _ hs1
            have e2 := ih.2.2.2 _ _ _ _ _ _ h
            refine allowMono_trans (fun k hk => ?_) e2
            rw [e1]
            exact hk


/-- The lazy tightness check only turns flags on. -/
theorem lazyAllow_mono (s : EdmondsState) (k : ℕ) :
    allowMono s (lazyAllow s k) := by
  intro k' hk
  unfold lazyAllow
  split
  · split
    · exact aget_aset_true _ _ _ hk
    · exact hk
  · exact hk

/-- Best-edge caching never touches `allowEdge`. -/
theorem bestEdgeUpdate_allowEdge (s : EdmondsState) (b k : ℕ) :
    (bestEdgeUpdate s b k).allowEdge = s.allowEdge := by
  unfold bestEdgeUpdate
  split <;> rfl

/-- The neighbor scan only ever turns `allowEdge` flags on. -/
theorem scanNeighbors_mono :
    ∀ (ps : List ℕ) (s : EdmondsState) (fuel cv : ℕ)
      (r : EdmondsState × Bool),
      scanNeighbors s fuel cv ps = some r → allowMono s r.1 := by
  intro ps
  induction ps with
  | nil =>
    intro s fuel cv r h
    simp only [scanNeighbors] at h
    rcases Option.some.injEq .. |>.mp h with rfl
    exact allowMono_refl s
  | cons p rest ih =>
    intro s fuel cv r h
    simp only [scanNeighbors] at h
    split at h
    · exact ih _ _ _ _ h
    · have e0 := lazyAllow_mono s (p / 2)
      split at h
      · split at h
        · rcases Option.bind_eq_some.mp h with ⟨s1, hs1, h⟩
          have e1 := allowMono_of_eq (assignLabel_allowEdge _ _ _ _ _ _ hs1)
          have e2 := ih _ _ _ _ h
          exact allowMono_trans e0 (allowMono_trans e1 e2)
        · split at h
          · rcases Option.bind_eq_some.mp h with ⟨rb, hrb, h⟩
            have e1 := allowMono_of_eq (scanBlossom_allowEdge _ _ _ _ _ hrb)
            split at h
            · rcases Option.bind_eq_some.mp h with ⟨s2, hs2, h⟩
              have e2 := allowMono_of_eq (addBlossom_allowEdge _ _ _ _ _ hs2)
              have e3 := ih _ _ _ _ h
              exact allowMono_trans e0
                (allowMono_trans e1 (allowMono_trans e2 e3))
            · rcases Option.bind_eq_some.mp h with ⟨s2, hs2, h⟩
              have e2 := allowMono_of_eq
                (augmentMatching_allowEdge _ _ _ _ hs2)
              rcases Option.some.injEq .. |>.mp h with rfl
              exact allowMono_trans e0 (allowMono_trans e1 e2)
          · split at h
            · have e3 := ih _ _ _ _ h
              exact allowMono_trans e0
                (allowMono_trans (allowMono_of_eq rfl) e3)
            · have e3 := ih _ _ _ _ h
              exact allowMono_trans e0 e3
      · split at h
        · have e3 := ih _ _ _ _ h
          exact allowMono_trans e0
            (allowMono_trans (allowMono_of_eq (bestEdgeUpdate_allowEdge _ _ _))
              e3)
        · split at h
          · have e3 := ih _ _ _ _ h
            exact allowMono_trans e0
              (allowMono_trans
                (allowMono_of_eq (bestEdgeUpdate_allowEdge _ _ _)) e3)
          · have e3 := ih _ _ _ _ h
            exact allowMono_trans e0 e3

/-- The queue-draining search loop only ever turns `allowEdge` flags on. -/
theorem searchLoop_mono :
    ∀ (fuel : ℕ) (s : EdmondsState) (r : EdmondsState × Bool),
      searchLoop s fuel = some r → allowMono s r.1 := by
  intro fuel
  induction fuel with
  | zero => intro s r h; simp [searchLoop] at h
  | succ n ih =>
    intro s r h
    simp only [searchLoop] at h
    split at h
    · rcases Option.some.injEq .. |>.mp h with rfl
      exact allowMono_refl s
    · rcases Option.bind_eq_some.mp h with ⟨rs, hrs, h⟩
      have e1 := scanNeighbors_mono _ _ _ _ _ hrs
      split at h
      · rcases Option.some.injEq .. |>.mp h with rfl
        exact e1
      · have e2 := ih _ _ h
        exact allowMono_trans e1 e2

/-- Applying a dual adjustment only moves dual variables. -/
theorem applyDelta_allowEdge (s : EdmondsState) (delta : ℚ) :
    (applyDelta s delta).allowEdge = s.allowEdge := by
  unfold applyDelta
  rw [foldl_allowEdge_eq _ (fun st b => by
    split
    · split
      · rfl
      · split <;> rfl
    · rfl)]
  rw [foldl_allowEdge_eq _ (fun st v => by
    split
    · rfl
    · split <;> rfl)]

/-- The dual-adjustment phase only ever turns `allowEdge` flags on. -/
theorem dualAdjust_mono (s : EdmondsState) (fuel : ℕ)
    (r : EdmondsState × Bool) (h : dualAdjust s fuel = some r) :
    allowMono s r.1 := by
  simp only [dualAdjust] at h
  have e0 : allowMono s (applyDelta s (computeDelta s).2.1) :=
    allowMono_of_eq (applyDelta_allowEdge s _)
  split at h
  · rcases Option.some.injEq .. |>.mp h with rfl
    exact e0
  · split at h
    · rcases Option.some.injEq .. |>.mp h with rfl
      refine allowMono_trans e0 (fun k hk => ?_)
      exact aget_asetI_true _ _ _ hk
    · split at h
      · rcases Option.some.injEq .. |>.mp h with rfl
        refine allowMono_trans e0 (fun k hk => ?_)
        exact aget_asetI_true _ _ _ hk
      · rcases Option.bind_eq_some.mp h with ⟨s1, hs1, h⟩
        have e1 := (expand_allowMono fuel).1 _ _ _ _ hs1
        rcases Option.some.injEq .. |>.mp h with rfl
        exact allowMono_trans e0 e1

/-- The per-stage search/adjust loop only ever turns `allowEdge` flags on. -/
theorem stageInner_mono :
    ∀ (fuel : ℕ) (s : EdmondsState) (r : EdmondsState × Bool),
      stageInner s fuel = some r → allowMono s r.1 := by
  intro fuel
  induction fuel with
  | zero => intro s r h; simp [stageInner] at h
  | succ n ih =>
    intro s r h
    simp only [stageInner] at h
    rcases Option.bind_eq_some.mp h with ⟨rs, hrs, h⟩
    have e1 := searchLoop_mono _ _ _ hrs
    split at h
    · rcases Option.some.injEq .. |>.mp h with rfl
      exact e1
    · rcases Option.bind_eq_some.mp h with ⟨rd, hrd, h⟩
      have e2 := dualAdjust_mono _ _ _ hrd
      split at h
      · rcases Option.some.injEq .. |>.mp h with rfl
        exact allowMono_trans e1 e2
      · have e3 := ih _ _ h
        exact allowMono_trans e1 (allowMono_trans e2 e3)

/-- Labelling the stage roots never touches `allowEdge`. -/
theorem rootLabels_allowEdge :
    ∀ (vs : List ℕ) (s : EdmondsState) (fuel : ℕ) (s' : EdmondsState),
      rootLabels s fuel vs = some s' → s'.allowEdge = s.allowEdge := by
  intro vs
  induction vs with
  | nil =>
    intro s fuel s' h
    simp only [rootLabels] at h
    rcases Option.some.injEq .. |>.mp h with rfl
    rfl
  | cons v vs ih =>
    intro s fuel s' h
    simp only [rootLabels] at h
    split at h
    · rcases Option.bind_eq_some.mp h with ⟨s1, hs1, h⟩
      have e1 := assignLabel_allowEdge _ _ _ _ _ _ hs1
      have e2 := ih _ _ _ h
      exact e2.trans e1
    · rcases Option.bind_eq_some.mp h with ⟨s1, hs1, h⟩
      rcases Option.some.injEq .. |>.mp hs1 with rfl
      have e2 := ih _ _ _ h
      exact e2

/-- The end-of-stage cleanup only ever turns `allowEdge` flags on. -/
theorem endStageExpand_mono :
    ∀ (bs : List ℕ) (s : EdmondsState) (fuel : ℕ) (s' : EdmondsState),
      endStageExpand s fuel bs = some s' → allowMono s s' := by
  intro bs
  induction bs with
  | nil =>
    intro s fuel s' h
    simp only [endStageExpand] at h
    rcases Option.some.injEq .. |>.mp h with rfl
    exact allowMono_refl s
  | cons b bs ih =>
    intro s fuel s' h
    simp only [endStageExpand] at h
    split at h
    · rcases Option.bind_eq_some.mp h with ⟨s1, hs1, h⟩
      have e1 := (expand_allowMono fuel).1 _ _ _ _ hs1
      have e2 := ih _ _ _ h
      exact allowMono_trans e1 e2
    · rcases Option.bind_eq_some.mp h with ⟨s1, hs1, h⟩
      rcases Option.some.injEq .. |>.mp hs1 with rfl
      exact ih _ _ _ h

/-- The stage body (everything a stage does after its reset) only ever turns
`allowEdge` flags on. -/
theorem stageBody_mono (fuel : ℕ) (s : EdmondsState) (r : EdmondsState × Bool)
    (h : stageBody s fuel = some r) : allowMono s r.1 := by
  unfold stageBody at h
  rcases Option.bind_eq_some.mp h with ⟨s1, hs1, h⟩
  have e1 := allowMono_of_eq (rootLabels_allowEdge _ _ _ _ hs1)
  rcases Option.bind_eq_some.mp h with ⟨ri, hri, h⟩
  have e2 := stageInner_mono _ _ _ hri
  split at h
  · rcases Option.bind_eq_some.mp h with ⟨s2, hs2, h⟩
    have e3 := endStageExpand_mono _ _ _ _ hs2
    rcases Option.some.injEq .. |>.mp h with rfl
    exact allowMono_trans e1 (allowMono_trans e2 e3)
  · rcases Option.some.injEq .. |>.mp h with rfl
    exact allowMono_trans e1 e2

/-- C8: within a single stage the `allowEdge` flags are monotone — once set
`true`, no step of the same stage (root labelling, the search/dual-adjust
loop with its blossom operations, or the end-of-stage expansion) resets it to
`false`; and the flags are cleared exactly by the reset performed at the
start of a stage, which re-initialises `allowEdge` to all-`false`. -/
theorem allowEdge_stage_monotone :
    (∀ s : EdmondsState,
      (resetStage s).allowEdge = List.replicate s.nEdge false) ∧
    (∀ (fuel : ℕ) (s : EdmondsState) (r : EdmondsState × Bool),
      stageBody s fuel = some r →
      ∀ k, aget s.allowEdge k false = true →
        aget r.1.allowEdge k false = true) :=
  ⟨fun _ => rfl, fun fuel s r h => stageBody_mono fuel s r h⟩

/-- Witness for C8: on the single-edge graph with edge `0` already allowed,
running a full stage body keeps the flag set. -/
theorem allowEdge_stage_monotone_witness :
    aget ((stageBody
      { resetStage (mkEdmonds [(0, 1, 1)] false) with allowEdge := [true] }
      200).getD (mkEdmonds [] false, false)).1.allowEdge 0 false = true := by
  have hsome : stageBody
      { resetStage (mkEdmonds [(0, 1, 1)] false) with allowEdge := [true] }
      200 = some ((stageBody
        { resetStage (mkEdmonds [(0, 1, 1)] false) with allowEdge := [true] }
        200).getD (mkEdmonds [] false, false)) := by
    with_unfolding_all rfl
  exact allowEdge_stage_monotone.2 200 _ _ hsome 0 (by with_unfolding_all rfl)
